import Mathlib

/-!
Verification development for the vega-protocol workflow orchestrator.

The TypeScript source is shallowly embedded: JS `Map`s become association
lists with `Map.set` replace-or-append semantics, JS numbers become an
executable exact-fraction type (`Option JQ`, with `none` modelling `NaN`),
decimal strings parsed with `parseFloat` / `BigInt` are parsed by
executable Lean functions, and thrown exceptions become `Except` errors.
-/

namespace Vega

/-- Lookup in an association list, the behaviour of JS `Map.get` (first
matching key; JS maps have unique keys, which `setA` maintains). -/
def lookupA {β : Type} : List (String × β) → String → Option β
  | [], _ => none
  | (k, v) :: rest, key => if k = key then some v else lookupA rest key

/-- JS `Map.set`: replace the value of an existing key in place, otherwise
append the binding at the end (insertion order is preserved). -/
def setA {β : Type} : List (String × β) → String → β → List (String × β)
  | [], key, v => [(key, v)]
  | (k, w) :: rest, key, v =>
    if k = key then (k, v) :: rest else (k, w) :: setA rest key v

/-- Split a character list at every occurrence of `sep`, the behaviour of
JS `String.prototype.split` with a single-character separator (an empty
input yields one empty field). -/
def splitOnChar (sep : Char) : List Char → List (List Char)
  | [] => [[]]
  | c :: rest =>
    let r := splitOnChar sep rest
    if c = sep then [] :: r
    else
      match r with
      | h :: t => (c :: h) :: t
      | [] => [[c]]

/-- ASCII whitespace recognised by the model of JS `trim` / leading
`parseFloat` whitespace. -/
def isWsChar (c : Char) : Bool :=
  c = ' ' || c = '\t' || c = '\n' || c = '\r'

/-- JS `String.prototype.trim` (restricted to ASCII whitespace). -/
def trimWs (cs : List Char) : List Char :=
  ((cs.dropWhile isWsChar).reverse.dropWhile isWsChar).reverse

/-- Decimal digit predicate. -/
def isDigitChar (c : Char) : Bool := '0' ≤ c && c ≤ '9'

/-- JS `String.prototype.toLowerCase` restricted to ASCII (the only
characters the sources compare case-insensitively are hex addresses). -/
def toLowerStr (s : String) : String :=
  String.mk (s.data.map fun c =>
    if 'A' ≤ c ∧ c ≤ 'Z' then Char.ofNat (c.toNat + 32) else c)

/-- Numeric value of a decimal digit character. -/
def digitVal (c : Char) : Nat := c.toNat - 48

/-- Value of a big-endian decimal digit string. -/
def digitsToNat (cs : List Char) : Nat :=
  cs.foldl (fun acc c => 10 * acc + digitVal c) 0

/-- Little-endian digit characters of `n`, by fuelled division (the fuel
`n` itself always suffices, and keeps the definition kernel-computable). -/
def natToCharsRev : Nat → Nat → List Char
  | 0, _ => []
  | fuel + 1, n =>
    if n = 0 then [] else Char.ofNat (48 + n % 10) :: natToCharsRev fuel (n / 10)

/-- Decimal rendering of a natural number, the behaviour of JS
`Number.prototype.toString` / `BigInt.prototype.toString` on non-negative
integers: standard base-10, no leading zeros, `"0"` for zero. -/
def natToChars (n : Nat) : List Char :=
  if n = 0 then ['0'] else (natToCharsRev n n).reverse

/-- String version of `natToChars`. -/
def natToStr (n : Nat) : String := String.mk (natToChars n)

/-- Model of JS `BigInt(string)` restricted to the non-negative inputs the
claims exercise: a string of decimal digits parses to its value, the empty
string parses to `0` (as `BigInt('')` does), anything else throws
(`none`). -/
def decToNat? (s : String) : Option Nat :=
  if s.data.all isDigitChar then some (digitsToNat s.data) else none

/-- JS `String.prototype.padStart(width, c)` on character lists. -/
def padStart (cs : List Char) (width : Nat) (c : Char) : List Char :=
  List.replicate (width - cs.length) c ++ cs

/-- JS `String.prototype.padEnd(width, c)` on character lists. -/
def padEnd (cs : List Char) (width : Nat) (c : Char) : List Char :=
  cs ++ List.replicate (width - cs.length) c

/-- JS numbers, as an executable exact-fraction model: an integer
numerator over a positive denominator stored as `dpred + 1` (fractions are
not kept reduced; `toRat` below gives the mathematical value). JS uses
IEEE-754 binary64; every number reaching this model is a small decimal
fraction, for which exact arithmetic is order- and sign-faithful. -/
structure JQ where
  num : Int
  dpred : Nat
deriving DecidableEq, Repr

/-- The (always positive) denominator. -/
def JQ.den (q : JQ) : Nat := q.dpred + 1

/-- The rational value of a `JQ`. -/
def JQ.toRat (q : JQ) : Rat := (q.num : Rat) / (q.den : Rat)

/-- Embed a natural number. -/
def JQ.ofNat (n : Nat) : JQ := ⟨n, 0⟩

/-- Fraction addition (denominators multiply). -/
def jqAdd (a b : JQ) : JQ :=
  ⟨a.num * b.den + b.num * a.den, a.dpred * b.dpred + a.dpred + b.dpred⟩

/-- Fraction subtraction. -/
def jqSub (a b : JQ) : JQ :=
  ⟨a.num * b.den - b.num * a.den, a.dpred * b.dpred + a.dpred + b.dpred⟩

/-- Fraction negation. -/
def jqNeg (a : JQ) : JQ := ⟨-a.num, a.dpred⟩

/-- Strict comparison by cross-multiplication (sound because denominators
are positive). -/
def jqLt (a b : JQ) : Bool := decide (a.num * b.den < b.num * a.den)

/-- Multiply by a power of ten (for exponent suffixes). -/
def jqMulPow10 (a : JQ) (e : Nat) : JQ := ⟨a.num * (10 ^ e : Nat), a.dpred⟩

/-- Divide by a power of ten (for negative exponent suffixes). -/
def jqDivPow10 (a : JQ) (e : Nat) : JQ := ⟨a.num, (a.dpred + 1) * 10 ^ e - 1⟩

/-- Model of JS `parseFloat`: skip leading whitespace, an optional sign,
then the longest prefix shaped `digits [. digits] [e[sign]digits]`; trailing
junk is ignored; if no digits are found the result is `NaN` (`none`).
(`Infinity` inputs, irrelevant to every claim, are also mapped to `none`.) -/
def parseFloatJS (s : String) : Option JQ :=
  let cs := s.data.dropWhile isWsChar
  let (neg, cs) : Bool × List Char :=
    match cs with
    | '-' :: rest => (true, rest)
    | '+' :: rest => (false, rest)
    | _ => (false, cs)
  let intPart := cs.takeWhile isDigitChar
  let cs1 := cs.drop intPart.length
  let (fracPart, cs2) : List Char × List Char :=
    match cs1 with
    | '.' :: rest => (rest.takeWhile isDigitChar, rest.drop (rest.takeWhile isDigitChar).length)
    | _ => ([], cs1)
  if intPart = [] ∧ fracPart = [] then none
  else
    let mantissa : JQ :=
      ⟨digitsToNat intPart * (10 ^ fracPart.length : Nat) + digitsToNat fracPart,
       10 ^ fracPart.length - 1⟩
    let scaled : JQ :=
      match cs2 with
      | 'e' :: rest => applyExp mantissa rest
      | 'E' :: rest => applyExp mantissa rest
      | _ => mantissa
    some (if neg then jqNeg scaled else scaled)
where
  /-- Exponent suffix: optional sign then digits; an ill-formed exponent is
  ignored by `parseFloat`. -/
  applyExp (mantissa : JQ) (rest : List Char) : JQ :=
    let (eneg, rest) : Bool × List Char :=
      match rest with
      | '-' :: r => (true, r)
      | '+' :: r => (false, r)
      | _ => (false, rest)
    let eDigits := rest.takeWhile isDigitChar
    if eDigits = [] then mantissa
    else if eneg then jqDivPow10 mantissa (digitsToNat eDigits)
    else jqMulPow10 mantissa (digitsToNat eDigits)

/-- JS number addition on the `Option JQ` model (`none` = `NaN` absorbs). -/
def jsAdd : Option JQ → Option JQ → Option JQ
  | some a, some b => some (jqAdd a b)
  | _, _ => none

/-- JS number subtraction on the `Option JQ` model. -/
def jsSub : Option JQ → Option JQ → Option JQ
  | some a, some b => some (jqSub a b)
  | _, _ => none

/-- JS `<` comparison: any comparison with `NaN` is false. -/
def jsLtB : Option JQ → Option JQ → Bool
  | some a, some b => jqLt a b
  | _, _ => false

/-- JS `>` comparison: any comparison with `NaN` is false. -/
def jsGtB : Option JQ → Option JQ → Bool
  | some a, some b => jqLt b a
  | _, _ => false

/-! ### USDC formatting (`x402PaymentService.formatUSDC` / `parseUSDC`)

Source: `src/payment/x402-payment.service.ts`. `formatUSDC` divides the
`BigInt` atomic amount by `1_000_000n` and pads the remainder to six digits
with `padStart`; `parseUSDC` splits on `'.'`, pads/truncates the fractional
part to six digits and recombines. `BigInt(...)` throwing on a non-numeric
string is modelled by `Option`. -/

/-- Embedding of `formatUSDC(atomicAmount: string): string`. -/
def formatUSDC (atomicAmount : String) : Option String :=
  (decToNat? atomicAmount).map fun amount =>
    let wholePart := amount / 1000000
    let fractionalPart := amount % 1000000
    String.mk (natToChars wholePart ++ '.' :: padStart (natToChars fractionalPart) 6 '0')

/-- Embedding of `parseUSDC(amount: string): string`. The destructuring
`const [whole = '0', fractional = '0'] = amount.split('.')` takes the first
two fields, defaulting each missing one to `'0'`. -/
def parseUSDC (amount : String) : Option String :=
  let parts := splitOnChar '.' amount.data
  let whole : List Char := (parts[0]?).getD ['0']
  let fractional : List Char := (parts[1]?).getD ['0']
  let paddedFractional := (padEnd fractional 6 '0').take 6
  match decToNat? (String.mk whole), decToNat? (String.mk paddedFractional) with
  | some w, some f => some (natToStr (w * 1000000 + f))
  | _, _ => none

/-! ### Budget manager (`BudgetManager`, `payment/budget-manager.service.ts`)

Balances are stored by the source as decimal strings and re-parsed with
`parseFloat` at every use; the model keeps the parsed numeric value
(`Option JQ`, `none` = `NaN`) per wallet and token, which commutes with the
source's parse/stringify round trips. -/

/-- Reservation lifecycle status. -/
inductive ResStatus
  | reserved
  | released
  | settled
deriving DecidableEq, Repr

/-- Embedding of the `BudgetReservation` record. -/
structure BudgetReservation where
  reservationId : String
  runId : String
  userWallet : String
  amount : String
  token : String
  chain : String
  status : ResStatus
  createdAt : Nat
deriving DecidableEq, Repr

/-- Budget errors: `InsufficientBudgetError` and `PaymentError`. -/
inductive BudgetErr
  | insufficientBudget (requested available : String)
  | paymentError (msg : String)
deriving DecidableEq, Repr

/-- In-memory state of `BudgetManager`: reservations keyed by run id and
wallet balances keyed by wallet then token. -/
structure BudgetState where
  reservations : List (String × BudgetReservation)
  walletBalances : List (String × List (String × Option JQ))
deriving DecidableEq, Repr

/-- Request record of `reserveBudget`. -/
structure ReserveBudgetRequest where
  runId : String
  userWallet : String
  amount : String
  token : String
  chain : String
deriving DecidableEq, Repr

/-- Embedding of `getBalance(wallet, token)`: missing wallets and tokens
default to 0. -/
def getBalance (st : BudgetState) (wallet token : String) : Option JQ :=
  match lookupA st.walletBalances wallet with
  | none => some (JQ.ofNat 0)
  | some balances => (lookupA balances token).getD (some (JQ.ofNat 0))

/-- Embedding of the private `updateBalance(wallet, token, amount)`. -/
def updateBalance (st : BudgetState) (wallet token : String) (amount : Option JQ) :
    BudgetState :=
  let inner := (lookupA st.walletBalances wallet).getD []
  { st with walletBalances := setA st.walletBalances wallet (setA inner token amount) }

/-- Embedding of `reserveBudget(request)`. The `uuidv4()` reservation id and
the `new Date()` timestamp are nondeterministic inputs, passed as arguments.
Note the source never checks whether a reservation already exists for the
run id: `this.reservations.set(runId, reservation)` overwrites. -/
def reserveBudget (st : BudgetState) (req : ReserveBudgetRequest)
    (freshId : String) (now : Nat) :
    Except BudgetErr (BudgetReservation × BudgetState) :=
  let balance := getBalance st req.userWallet req.token
  let amountNum := parseFloatJS req.amount
  if jsLtB balance amountNum then
    .error (.insufficientBudget req.amount "")
  else
    let reservation : BudgetReservation :=
      { reservationId := freshId, runId := req.runId, userWallet := req.userWallet,
        amount := req.amount, token := req.token, chain := req.chain,
        status := .reserved, createdAt := now }
    let st1 := { st with reservations := setA st.reservations req.runId reservation }
    let st2 := updateBalance st1 req.userWallet req.token (jsSub balance amountNum)
    .ok (reservation, st2)

/-- Embedding of `releaseBudget(runId, spentAmount?)`. The JS conditional
`spentAmount ? parseFloat(spentAmount) : 0` treats a missing or empty
string as 0. The refund is credited only when `reservedAmount - spent` is
strictly positive (a `NaN` difference compares false); the reservation is
marked `released` in every successful case. -/
def releaseBudget (st : BudgetState) (runId : String) (spentAmount : Option String) :
    Except BudgetErr BudgetState :=
  match lookupA st.reservations runId with
  | none => .error (.paymentError ("No budget reservation found for run " ++ runId))
  | some reservation =>
    let reservedAmount := parseFloatJS reservation.amount
    let spent : Option JQ :=
      match spentAmount with
      | some s => if s = "" then some (JQ.ofNat 0) else parseFloatJS s
      | none => some (JQ.ofNat 0)
    let refundAmount := jsSub reservedAmount spent
    let st' :=
      if jsGtB refundAmount (some (JQ.ofNat 0)) then
        let currentBalance := getBalance st reservation.userWallet reservation.token
        updateBalance st reservation.userWallet reservation.token
          (jsAdd currentBalance refundAmount)
      else st
    let reservation' := { reservation with status := ResStatus.released }
    .ok { st' with reservations := setA st'.reservations runId reservation' }

/-- Embedding of `settleBudget(runId)`. -/
def settleBudget (st : BudgetState) (runId : String) : Except BudgetErr BudgetState :=
  match lookupA st.reservations runId with
  | none => .error (.paymentError ("No budget reservation found for run " ++ runId))
  | some reservation =>
    let reservation' := { reservation with status := ResStatus.settled }
    .ok { st with reservations := setA st.reservations runId reservation' }

/-- The mock balances installed by `initializeMockBalances()`: 1000 USDC,
500 USDT and 2.5 ETH for one test wallet. -/
def mockBudgetState : BudgetState :=
  { reservations := [],
    walletBalances :=
      [("0x742d35Cc6634C0532925a3b844Bc9e7595f0bEb",
        [("USDC", parseFloatJS "1000.0"), ("USDT", parseFloatJS "500.0"),
         ("ETH", parseFloatJS "2.5")])] }

/-! ### BigNumber string helpers (`add`/`subtract`, `utils` big-number module)

The helpers parse both operands with `parseFloat`, operate on JS numbers
and stringify the result; the model returns the numeric value. -/

/-- Embedding of `add(a, b)` (numeric value of the returned string). -/
def addS (a b : String) : Option JQ := jsAdd (parseFloatJS a) (parseFloatJS b)

/-- Embedding of `subtract(a, b)` (numeric value of the returned string). -/
def subtractS (a b : String) : Option JQ := jsSub (parseFloatJS a) (parseFloatJS b)

/-! ### Workflow scheduler (`WorkflowScheduler`, `workflow-scheduler.service.ts`) -/

/-- Run lifecycle status. -/
inductive RunStatus
  | queued
  | running
  | completed
  | failed
  | cancelled
deriving DecidableEq, Repr

/-- The terminal-status test `['completed','failed','cancelled'].includes`. -/
def RunStatus.isTerminal : RunStatus → Bool
  | .completed => true
  | .failed => true
  | .cancelled => true
  | _ => false

/-- Embedding of the `WorkflowRun` record (fields relevant to scheduling). -/
structure WorkflowRunM where
  runId : String
  status : RunStatus
  createdAt : Nat
  startedAt : Option Nat
  endedAt : Option Nat
  reservedBudget : String
  spentBudget : String
  errMsg : Option String
deriving DecidableEq, Repr

/-- The `updates?: Partial<WorkflowRun>` patch of `updateRunStatus`: a field
is `some v` when the key is present. (`status` itself is always overridden
by the separate `status` argument; identity fields are never patched by the
engine and are omitted.) -/
structure RunPatch where
  startedAt : Option Nat := none
  endedAt : Option Nat := none
  spentBudget : Option String := none
  errMsg : Option String := none
deriving DecidableEq, Repr

/-- Scheduler state: runs keyed by id, the FIFO queue of run ids, and the
budget manager it drives. -/
structure SchedulerState where
  runs : List (String × WorkflowRunM)
  queue : List String
  budget : BudgetState
deriving DecidableEq, Repr

/-- Embedding of `updateRunStatus(runId, status, updates?)`: spread the run,
spread the patch, force the status, then set `startedAt` on entering
`running` (if unset) else set `endedAt` on entering a terminal status (if
unset). No transition check of any kind is performed. -/
def updateRunStatus (st : SchedulerState) (runId : String) (status : RunStatus)
    (patch : RunPatch) (now : Nat) :
    Except String (WorkflowRunM × SchedulerState) :=
  match lookupA st.runs runId with
  | none => .error ("Run " ++ runId ++ " not found")
  | some run =>
    let u0 : WorkflowRunM :=
      { run with
        status := status
        startedAt := match patch.startedAt with | some v => some v | none => run.startedAt
        endedAt := match patch.endedAt with | some v => some v | none => run.endedAt
        spentBudget := (patch.spentBudget).getD run.spentBudget
        errMsg := match patch.errMsg with | some v => some v | none => run.errMsg }
    let u1 : WorkflowRunM :=
      if status = .running ∧ u0.startedAt = none then { u0 with startedAt := some now }
      else if status.isTerminal ∧ u0.endedAt = none then { u0 with endedAt := some now }
      else u0
    .ok (u1, { st with runs := setA st.runs runId u1 })

/-- Embedding of `cancelRun(runId)`. The result pairs the `Except` outcome
with the post-state, because the source mutates the queue (splice) before
`releaseBudget` can still throw. Terminal runs are rejected up front. -/
def cancelRun (st : SchedulerState) (runId : String) (now : Nat) :
    Except String (WorkflowRunM × SchedulerState) × SchedulerState :=
  match lookupA st.runs runId with
  | none => (.error ("Run " ++ runId ++ " not found"), st)
  | some run =>
    if run.status.isTerminal then
      (.error ("Cannot cancel run with status " ++ toString (repr run.status)), st)
    else
      let st1 := { st with queue := st.queue.erase runId }
      match releaseBudget st1.budget runId none with
      | .error _ => (.error "Failed to release budget", st1)
      | .ok b' =>
        let st2 := { st1 with budget := b' }
        match updateRunStatus st2 runId .cancelled ({} : RunPatch) now with
        | .error e => (.error e, st2)
        | .ok (r, st3) => (.ok (r, st3), st3)

/-- One scheduler API call, for reasoning about call sequences. -/
inductive SchedCmd
  | update (runId : String) (status : RunStatus) (patch : RunPatch) (now : Nat)
  | cancel (runId : String) (now : Nat)
deriving DecidableEq, Repr

/-- Post-state of a single scheduler call (errors leave the state as the
source leaves it). -/
def stepCmd (st : SchedulerState) : SchedCmd → SchedulerState
  | .update runId status patch now =>
    match updateRunStatus st runId status patch now with
    | .ok p => p.2
    | .error _ => st
  | .cancel runId now => (cancelRun st runId now).2

/-- Post-state of a sequence of scheduler calls. -/
def runCmds (st : SchedulerState) (cs : List SchedCmd) : SchedulerState :=
  cs.foldl stepCmd st

/-! ### Payment verification

Two server-side verifiers exist in the source: `PaymentFacilitator.verifyPayment`
(`payment/x402-payment.service.ts`) and `X402PaymentMiddleware.verifyPayment`
(the x402 middleware module). They check different conditions; both are
embedded. Amount strings are `BigInt`-parsed decimal integers; ECDSA
recovery (`ethers.verifyMessage`) is abstracted as a `recover` function
argument, and `Date.now()` as a `now` argument. -/

/-- Payment requirements record (amounts kept as the decimal strings the
source carries). -/
structure PaymentRequirementsM where
  scheme : String
  network : String
  asset : String
  payTo : String
  maxAmountRequired : String
  resource : String
  maxTimeoutSeconds : Nat
deriving DecidableEq, Repr

/-- The `ExactPaymentPayloadData.authorization` record. -/
structure PaymentAuth where
  fromAddr : String
  toAddr : String
  value : String
  validAfter : Nat
  validBefore : Nat
  nonce : String
  extraMessage : Option String
deriving DecidableEq, Repr

/-- The `ExactPaymentPayloadData` record. -/
structure ExactPaymentPayloadData where
  authorization : PaymentAuth
  signature : String
deriving DecidableEq, Repr

/-- The outer `PaymentPayload` (network tag plus payload data). -/
structure PaymentPayloadM where
  network : String
  payloadData : ExactPaymentPayloadData
deriving DecidableEq, Repr

/-- Verification outcome `{ valid: boolean; error?: string }`. -/
structure VerifyResult where
  valid : Bool
  errMsg : Option String
deriving DecidableEq, Repr

/-- Embedding of `PaymentFacilitator.verifyPayment`, in source check order:
network equality, recipient equality (case-insensitive), `BigInt` amount
comparison `value < maxAmountRequired` rejected (so any value `≥` the
requirement passes), validity window, and signer recovery over the message
carried in `authorization.extra?.message || ''`. A `BigInt` parse failure
throws and is caught as an invalid result. -/
def facilitatorVerifyPayment (recover : String → String → String) (now : Nat)
    (p : PaymentPayloadM) (reqs : PaymentRequirementsM) : VerifyResult :=
  let auth := p.payloadData.authorization
  if p.network ≠ reqs.network then ⟨false, some "Network mismatch"⟩
  else if toLowerStr auth.toAddr ≠ toLowerStr reqs.payTo then
    ⟨false, some "Recipient address mismatch"⟩
  else
    match decToNat? auth.value, decToNat? reqs.maxAmountRequired with
    | some v, some m =>
      if v < m then ⟨false, some "Insufficient payment amount"⟩
      else if now < auth.validAfter ∨ auth.validBefore < now then
        ⟨false, some "Payment expired or not yet valid"⟩
      else
        let message := auth.extraMessage.getD ""
        let recoveredAddress := recover message p.payloadData.signature
        if toLowerStr recoveredAddress ≠ toLowerStr auth.fromAddr then
          ⟨false, some "Invalid signature"⟩
        else ⟨true, none⟩
    | _, _ => ⟨false, some "Cannot convert value to a BigInt"⟩

/-- The middleware's payload shape: its authorization carries a numeric
`chainId` instead of a network tag. -/
structure MwPaymentAuth where
  fromAddr : String
  toAddr : String
  value : String
  chainId : Nat
deriving DecidableEq, Repr

/-- Middleware payment payload (`authorization` may be absent). -/
structure MwPaymentPayload where
  authorization : Option MwPaymentAuth
deriving DecidableEq, Repr

/-- Embedding of the private `getChainId(network)` lookup (defaults to the
base-sepolia chain id). -/
def getChainIdStr (network : String) : String :=
  if network = "base" then "8453" else "84532"

/-- Embedding of `X402PaymentMiddleware.verifyPayment`, in source check
order: authorization present, `chainId.toString()` equals the chain id of
the requirement's network, `value` equals `maxAmountRequired` exactly
(plain string inequality `!==`), and recipient equality (case-insensitive).
No validity-window or signature check is performed. -/
def middlewareVerifyPayment (p : MwPaymentPayload) (reqs : PaymentRequirementsM) :
    VerifyResult :=
  match p.authorization with
  | none => ⟨false, some "Missing payment authorization"⟩
  | some auth =>
    if natToStr auth.chainId ≠ getChainIdStr reqs.network then
      ⟨false, some ("Network mismatch: expected " ++ reqs.network)⟩
    else if auth.value ≠ reqs.maxAmountRequired then
      ⟨false, some ("Amount mismatch: expected " ++ reqs.maxAmountRequired ++
        ", got " ++ auth.value)⟩
    else if toLowerStr auth.toAddr ≠ toLowerStr reqs.payTo then
      ⟨false, some "Recipient address mismatch"⟩
    else ⟨true, none⟩

/-! ### JS values and the template resolver (`utils/template-resolver.ts`) -/

/-- Model of the JS values flowing through contexts, node inputs and
outputs. -/
inductive JValue
  | undefined
  | null
  | str (s : String)
  | num (q : ℚ)
  | jsBool (b : Bool)
  | obj (fields : List (String × JValue))
  | arr (elems : List JValue)

/-- Property access `current[part]` for the value shapes the resolver
meets: object key lookup, canonical numeric indexing into arrays, and
`undefined` for every other receiver (string/number character or method
properties are not exercised by any claim and are modelled as absent). -/
def getProp : JValue → String → JValue
  | .obj fields, k => (lookupA fields k).getD .undefined
  | .arr elems, k =>
    match decToNat? k with
    | some i => if natToStr i = k then (elems[i]?).getD .undefined else .undefined
    | none => .undefined
  | _, _ => .undefined

/-- Embedding of the loop body of `getNestedValue`: bail out with
`undefined` when the current value is `undefined`/`null`, otherwise index
with the next path segment. -/
def walkParts : JValue → List (List Char) → JValue
  | v, [] => v
  | v, p :: ps =>
    match v with
    | .undefined => .undefined
    | .null => .undefined
    | v => walkParts (getProp v (String.mk p)) ps

/-- Embedding of `getNestedValue(obj, path)`: split the dotted path and walk. -/
def getNestedValue (v : JValue) (path : String) : JValue :=
  walkParts v (splitOnChar '.' path.data)

/-- Anchored match of the template pattern at the head of the input:
two opening braces, a non-empty greedy run of non-closing-brace
characters, two closing braces; returns the inner path and the remaining
input. -/
def matchTemplateAt : List Char → Option (List Char × List Char)
  | c1 :: c2 :: rest =>
    if c1 = '{' ∧ c2 = '{' then
      let inner := rest.takeWhile (fun c => c ≠ '}')
      let after := rest.drop inner.length
      if inner = [] then none
      else
        match after with
        | a1 :: a2 :: tail => if a1 = '}' ∧ a2 = '}' then some (inner, tail) else none
        | _ => none
    else none
  | _ => none

/-- Leftmost template match, the behaviour of the global regex scan:
returns the text before the match, the inner path, and the rest. -/
def findTemplate : List Char → Option (List Char × List Char × List Char)
  | [] => none
  | c :: rest =>
    match matchTemplateAt (c :: rest) with
    | some (inner, tail) => some ([], inner, tail)
    | none =>
      match findTemplate rest with
      | some (pre, inner, tail) => some (c :: pre, inner, tail)
      | none => none

/-- The full-string template test `/^\x7b\x7b([^\x7d]+)\x7d\x7d$/`. -/
def fullTemplateMatch (cs : List Char) : Option (List Char) :=
  match matchTemplateAt cs with
  | some (inner, []) => some inner
  | _ => none

mutual

/-- JS `String(value)` as used when splicing a resolved value into
surrounding text. Non-integral numbers would be printed by binary64
shortest-round-trip rendering, which this model does not reproduce; no
theorem below depends on that case. -/
def jsToString : JValue → String
  | .undefined => "undefined"
  | .null => "null"
  | .str s => s
  | .num q => if q.den = 1 then (if q.num < 0 then "-" ++ natToStr q.num.natAbs else natToStr q.num.natAbs) else "~" ++ natToStr q.num.natAbs ++ "/" ++ natToStr q.den
  | .jsBool b => if b then "true" else "false"
  | .obj _ => "[object Object]"
  | .arr elems => String.intercalate "," (jsToStringList elems)

/-- Array elements render with `undefined` and `null` as empty fields, as
`Array.prototype.toString` does. -/
def jsToStringList : List JValue → List String
  | [] => []
  | .undefined :: rest => "" :: jsToStringList rest
  | .null :: rest => "" :: jsToStringList rest
  | v :: rest => jsToString v :: jsToStringList rest

end

/-- One pass of `template.replace(templatePattern, ...)`: each match whose
trimmed path resolves to a defined value is replaced by its
stringification, an unresolved match is kept verbatim, and scanning
resumes after the match (replacements are not rescanned). Fuel bounds the
number of matches; `resolve` supplies more fuel than the input length, and
every match consumes at least four characters, so the fuel never runs out. -/
def replaceTemplates (ctx : JValue) : Nat → List Char → List Char
  | 0, cs => cs
  | fuel + 1, cs =>
    match findTemplate cs with
    | none => cs
    | some (pre, inner, rest) =>
      let value := getNestedValue ctx (String.mk (trimWs inner))
      let piece :=
        match value with
        | .undefined => '{' :: '{' :: (inner ++ '}' :: '}' :: [])
        | v => (jsToString v).data
      pre ++ piece ++ replaceTemplates ctx fuel rest

/-- Embedding of `TemplateResolver.resolve(template, context)`: non-strings
are returned unchanged; strings without a template token are returned
unchanged; a string that is exactly one template returns the resolved
native value (possibly `undefined`); otherwise each token is spliced or
kept as described in `replaceTemplates`. -/
def resolve (template : JValue) (ctx : JValue) : JValue :=
  match template with
  | .str s =>
    if (findTemplate s.data).isSome = false then .str s
    else
      match fullTemplateMatch s.data with
      | some inner => getNestedValue ctx (String.mk (trimWs inner))
      | none => .str (String.mk (replaceTemplates ctx (s.data.length + 1) s.data))
  | v => v

/-! ### Output extraction (`WorkflowExecutionEngine.extractOutput`) -/

/-- Message / artifact parts. Only the `kind` tags the source inspects are
distinguished; a `data` part carries its payload mapping. -/
inductive A2APart
  | textPart (t : String)
  | dataPart (d : List (String × JValue))
  | otherPart (kind : String)

/-- The A2A execution result union: a message with parts, or a task with an
id, a status state, and artifacts each carrying parts. -/
inductive A2AResult
  | message (parts : List A2APart)
  | task (id : String) (statusState : String) (artifacts : List (List A2APart))

/-- The `parts.filter(kind === 'text').map(p.text)` pipeline. -/
def textsOfParts (parts : List A2APart) : List String :=
  parts.filterMap fun p =>
    match p with
    | .textPart t => some t
    | _ => none

/-- The `textParts.length === 1 ? textParts[0] : textParts` selection. -/
def selectTexts (ts : List String) : JValue :=
  match ts with
  | [t] => .str t
  | ts => .arr (ts.map JValue.str)

/-- Embedding of `extractOutput(result)`. For a message, only `text` parts
are ever consulted; `data` parts are ignored entirely (there is no merge
step in the source). For a task, the first artifact's parts are treated the
same way. -/
def extractOutput : A2AResult → JValue
  | .message parts => selectTexts (textsOfParts parts)
  | .task id statusState artifacts =>
    match artifacts with
    | a :: _ =>
      .obj [("taskId", .str id), ("status", .str statusState),
            ("output", selectTexts (textsOfParts a))]
    | [] => .obj [("taskId", .str id), ("status", .str statusState)]

/-! ### Node execution with retry (`WorkflowExecutionEngine.executeNode`)

Each call allocates a fresh `NodeRun` with `retryCount: 0`. On failure the
code checks `nodeRun.retryCount < node.retryPolicy.maxAttempts` — true
whenever `maxAttempts ≥ 1`, since the counter was just created — increments
the local counter, and recurses into a *fresh* `executeNode` call that
discards the incremented counter. The attempt outcomes are a
nondeterministic input, one per invocation index. -/

/-- Retry policy record. -/
structure RetryPolicyM where
  maxAttempts : Nat
  backoffMs : Nat
deriving DecidableEq, Repr

/-- The node fields `executeNode` consults. -/
structure ExecNodeM where
  id : String
  agentRef : Option String
  retryPolicy : Option RetryPolicyM
deriving DecidableEq, Repr

/-- Result record of one node execution. -/
structure NodeRunOut where
  nodeId : String
  statusStr : String
  retryCount : Nat
deriving DecidableEq, Repr

/-- Embedding of `executeNode`, indexed by the invocation number and by
fuel. A `none` result means the recursion consumed all fuel without
returning — for every fuel value — i.e. the source recursion does not
terminate. -/
def executeNodeFuel (node : ExecNodeM) (attempt : Nat → Except String JValue) :
    Nat → Nat → Option (Except String NodeRunOut)
  | _, 0 => none
  | idx, fuel + 1 =>
    match attempt idx with
    | .ok _ => some (.ok { nodeId := node.id, statusStr := "completed", retryCount := 0 })
    | .error e =>
      match node.retryPolicy with
      | some rp =>
        if 0 < rp.maxAttempts then executeNodeFuel node attempt (idx + 1) fuel
        else some (.error e)
      | none => some (.error e)

/-! ### Workflow specs, the validator, and the engine's topological sort

Sources: `WorkflowValidator` (`workflow-validator.service.ts`) and
`WorkflowExecutionEngine.getExecutionOrder` (`execution-engine.service.ts`). -/

/-- The node fields validation and scheduling consult. -/
structure WorkflowNodeM where
  id : String
  nodeType : String
  agentRef : Option String
  name : String
deriving DecidableEq, Repr

/-- A directed edge (`from`/`to` in the source; `from` is a Lean keyword). -/
structure WorkflowEdgeM where
  fromId : String
  toId : String
deriving DecidableEq, Repr

/-- The workflow-spec fields validation and scheduling consult. -/
structure WorkflowSpecM where
  name : String
  chain : String
  token : String
  maxBudget : String
  entryNodeId : String
  nodes : List WorkflowNodeM
  edges : List WorkflowEdgeM
deriving DecidableEq, Repr

/-- The agent-descriptor fields the validator consults. -/
structure AgentM where
  status : String
  supportedChains : List String
  supportedTokens : List String
deriving DecidableEq, Repr

/-- The agent registry, keyed by agent ref (`getAgent` lookup). -/
abbrev Registry := List (String × AgentM)

/-- The node-id list `spec.nodes.map(n => n.id)`. -/
def nodeIds (spec : WorkflowSpecM) : List String :=
  spec.nodes.map WorkflowNodeM.id

/-- Embedding of `validateStructure`: non-blank name, at least one node,
an entry node id that names an existing node. -/
def validateStructure (spec : WorkflowSpecM) : Bool :=
  (trimWs spec.name.data ≠ []) && (spec.nodes ≠ []) && (spec.entryNodeId ≠ "") &&
    (spec.nodes.any fun n => n.id = spec.entryNodeId)

/-- Adjacency list built the way both `detectCycles` and
`validateReachability` build it: only edge sources get keys. -/
def adjacencyOf (edges : List WorkflowEdgeM) : List (String × List String) :=
  edges.foldl
    (fun adj e =>
      match lookupA adj e.fromId with
      | some l => setA adj e.fromId (l ++ [e.toId])
      | none => setA adj e.fromId [e.toId])
    []

/-- The BFS loop of `validateReachability`: pop, mark reachable, push every
neighbour not yet marked (duplicates included, as the source does). Fuel
bounds the pops; exhaustion returns the set collected so far, which can
only shrink the reachable set, i.e. the model rejects whenever fuel runs
out — a conservative direction for every theorem below, and the generous
fuel in `validateReachability` covers all inputs appearing here. -/
def bfsReach (adj : List (String × List String)) :
    Nat → List String → List String → List String
  | 0, _, reachable => reachable
  | _, [], reachable => reachable
  | fuel + 1, current :: rest, reachable =>
    let reachable' := if reachable.contains current then reachable else reachable ++ [current]
    let neighbors := (lookupA adj current).getD []
    let pushes := neighbors.filter fun n => !(reachable'.contains n)
    bfsReach adj fuel (rest ++ pushes) reachable'

/-- Embedding of `validateReachability`: BFS from the entry node, then
demand that every node id was reached. -/
def validateReachability (spec : WorkflowSpecM) : Bool :=
  let reach := bfsReach (adjacencyOf spec.edges)
    (2 ^ (spec.nodes.length + spec.edges.length * spec.nodes.length + 3))
    [spec.entryNodeId] []
  spec.nodes.all fun n => reach.contains n.id

/-- Embedding of `validateGraph`: every edge endpoint must be a known node
id, and every node must be reachable from the entry node. The source also
runs `detectCycles`, but a detected cycle only emits a console warning
("cycles might be intentional for loop nodes") and never fails validation,
so it does not participate in acceptance. -/
def validateGraph (spec : WorkflowSpecM) : Bool :=
  (spec.edges.all fun e =>
      (nodeIds spec).contains e.fromId && (nodeIds spec).contains e.toId) &&
    validateReachability spec

/-- Embedding of `validateAgentReferences`: every node of type `agent` with
a truthy `agentRef` must name a registered, published agent supporting the
workflow's chain and token. -/
def validateAgentReferences (reg : Registry) (spec : WorkflowSpecM) : Bool :=
  (spec.nodes.filter fun n => n.nodeType = "agent" && n.agentRef.getD "" ≠ "").all
    fun n =>
      match lookupA reg (n.agentRef.getD "") with
      | none => false
      | some a =>
        a.status = "published" && a.supportedChains.contains spec.chain &&
          a.supportedTokens.contains spec.token

/-- Embedding of `validateBudget`: `parseFloat(spec.maxBudget)` must be a
number (not `NaN`) strictly greater than zero. -/
def validateBudget (spec : WorkflowSpecM) : Bool :=
  match parseFloatJS spec.maxBudget with
  | some q => jqLt (JQ.ofNat 0) q
  | none => false

/-- Embedding of `WorkflowValidator.validate` (acceptance = no
`WorkflowValidationError` thrown): the four groups in source order. -/
def validate (reg : Registry) (spec : WorkflowSpecM) : Bool :=
  validateStructure spec && validateGraph spec && validateAgentReferences reg spec &&
    validateBudget spec

/-- The in-degree map of `getExecutionOrder`: every node id starts at 0
(`Map` semantics deduplicate), then each edge increments its target
(creating the key at `-1 + 1` if absent, exactly as `inDegree.set(edge.to,
(inDegree.get(edge.to) || 0) + 1)` does). Values are integers because the
loop later decrements without a floor. -/
def initInDegree (spec : WorkflowSpecM) : List (String × Int) :=
  spec.edges.foldl
    (fun m e => setA m e.toId (((lookupA m e.toId).getD 0) + 1))
    (spec.nodes.foldl (fun m n => setA m n.id 0) [])

/-- The successor map of `getExecutionOrder`: node keys initialised to
`[]`, then `graph.get(edge.from)?.push(edge.to)` — a no-op when the source
is not a node id. -/
def initGraph (spec : WorkflowSpecM) : List (String × List String) :=
  spec.edges.foldl
    (fun g e =>
      match lookupA g e.fromId with
      | some l => setA g e.fromId (l ++ [e.toId])
      | none => g)
    (spec.nodes.foldl (fun g n => setA g n.id []) [])

/-- One iteration of the neighbour loop: decrement the neighbour's stored
in-degree and push it when the new degree is zero (`if (newDegree === 0)`). -/
def decStep (acc : List (String × Int) × List String) (n : String) :
    List (String × Int) × List String :=
  let newDeg := ((lookupA acc.1 n).getD 0) - 1
  (setA acc.1 n newDeg, if newDeg = 0 then acc.2 ++ [n] else acc.2)

/-- The neighbour loop of Kahn's algorithm: decrement each neighbour's
degree and collect (in order) those that hit exactly zero. -/
def decrementNeighbors (inDeg : List (String × Int)) (ns : List String) :
    List (String × Int) × List String :=
  ns.foldl decStep (inDeg, [])

/-- The while-loop of Kahn's algorithm. Fuel bounds the pops; the total
number of queue pushes never exceeds the number of in-degree entries plus
the number of decrements, so `kahnFuel` below always suffices. -/
def kahnLoop (graph : List (String × List String)) :
    Nat → List String → List (String × Int) → List String → List String
  | 0, _, _, result => result
  | _, [], _, result => result
  | fuel + 1, current :: rest, inDeg, result =>
    let neighbors := (lookupA graph current).getD []
    let step := decrementNeighbors inDeg neighbors
    kahnLoop graph fuel (rest ++ step.2) step.1 (result ++ [current])

/-- Fuel for `kahnLoop`: initial queue entries are at most
`nodes + edges`, and pushes during the loop are at most one per edge. -/
def kahnFuel (spec : WorkflowSpecM) : Nat :=
  spec.nodes.length + 2 * spec.edges.length + 1

/-- Embedding of `getExecutionOrder(spec)`: run Kahn's algorithm from the
zero-in-degree queue (in map insertion order) and fail with the cycle
`ExecutionError` when the computed order misses nodes. -/
def getExecutionOrder (spec : WorkflowSpecM) : Except String (List String) :=
  let graph := initGraph spec
  let inDeg := initInDegree spec
  let queue := inDeg.filterMap fun p => if p.2 = 0 then some p.1 else none
  let result := kahnLoop graph (kahnFuel spec) queue inDeg []
  if result.length ≠ spec.nodes.length then
    .error "Workflow contains cycles or unreachable nodes"
  else .ok result

/-- One directed step along a spec's edge set. -/
def EdgeStep (spec : WorkflowSpecM) (a b : String) : Prop :=
  ∃ e ∈ spec.edges, e.fromId = a ∧ e.toId = b

/-- Acyclicity of the spec's edge relation: no non-empty directed path
returns to its start. -/
def AcyclicSpec (spec : WorkflowSpecM) : Prop :=
  ∀ n, ¬ Relation.TransGen (EdgeStep spec) n n

/-- Number of edges into `n` whose source is still unprocessed (not in
`R`): the quantity Kahn's in-degree map tracks. -/
def inCount (spec : WorkflowSpecM) (R : List String) (n : String) : Nat :=
  (spec.edges.filter fun e => e.toId = n && !(R.contains e.fromId)).length

/-- Loop invariant of Kahn's algorithm, at the head of each iteration. -/
structure KahnInv (spec : WorkflowSpecM) (queue : List String)
    (inDeg : List (String × Int)) (result : List String) : Prop where
  keys : inDeg.map Prod.fst = nodeIds spec
  vals : ∀ n ∈ nodeIds spec, lookupA inDeg n = some (inCount spec result n : Int)
  nodupRQ : (result ++ queue).Nodup
  subR : ∀ n ∈ result, n ∈ nodeIds spec
  subQ : ∀ n ∈ queue, n ∈ nodeIds spec
  zeroQ : ∀ n ∈ queue, inCount spec result n = 0
  zeroR : ∀ n ∈ result, inCount spec result n = 0
  complete : ∀ n ∈ nodeIds spec, n ∉ result → inCount spec result n = 0 → n ∈ queue

instance exceptDecEq {e a : Type} [DecidableEq e] [DecidableEq a] :
    DecidableEq (Except e a) := fun
  | .ok x, .ok y =>
    if h : x = y then isTrue (by rw [h]) else isFalse fun hh => h (Except.ok.inj hh)
  | .error x, .error y =>
    if h : x = y then isTrue (by rw [h]) else isFalse fun hh => h (Except.error.inj hh)
  | .ok _, .error _ => isFalse fun hh => by cases hh
  | .error _, .ok _ => isFalse fun hh => by cases hh


/-- Wallet of the mock balances. -/
def mockWallet : String := "0x742d35Cc6634C0532925a3b844Bc9e7595f0bEb"

/-- A budget state that already holds a live reservation for run `r1`. -/
def dupResState : BudgetState :=
  { reservations :=
      [("r1", { reservationId := "resv0", runId := "r1", userWallet := "0xW",
                amount := "5", token := "USDC", chain := "base",
                status := .reserved, createdAt := 0 })],
    walletBalances := [("0xW", [("USDC", some (JQ.ofNat 10))])] }

/-- The result of re-reserving run `r1` at `dupResState` (computed from
the embedding). -/
def dupResReservation : BudgetReservation :=
  { reservationId := "resv1", runId := "r1", userWallet := "0xW",
    amount := "5", token := "USDC", chain := "base",
    status := .reserved, createdAt := 1 }

/-- Post-state of re-reserving run `r1` at `dupResState`. -/
def dupResState' : BudgetState :=
  { reservations := [("r1", dupResReservation)],
    walletBalances := [("0xW", [("USDC", some (JQ.ofNat 5))])] }

/-- The reservation produced by the non-integral reserve below. -/
def fracReservation : BudgetReservation :=
  { reservationId := "idx", runId := "rx", userWallet := mockWallet,
    amount := "0.1", token := "ETH", chain := "base",
    status := .reserved, createdAt := 0 }

/-- Post-state of reserving `0.1` ETH out of the mock `2.5` ETH balance. -/
def fracState' : BudgetState :=
  { reservations := [("rx", fracReservation)],
    walletBalances :=
      [(mockWallet,
        [("USDC", some { num := 10000, dpred := 9 }),
         ("USDT", some { num := 5000, dpred := 9 }),
         ("ETH", some { num := 240, dpred := 99 })])] }

/-- Post-state of releasing run `r1` at `dupResState` with no spent
amount. -/
def relState' : BudgetState :=
  { reservations :=
      [("r1", { reservationId := "resv0", runId := "r1", userWallet := "0xW",
                amount := "5", token := "USDC", chain := "base",
                status := .released, createdAt := 0 })],
    walletBalances := [("0xW", [("USDC", some { num := 15, dpred := 0 })])] }

/-- A registry holding one published agent compatible with base/USDC. -/
def echoRegistry : Registry :=
  [("echo", { status := "published", supportedChains := ["base"],
              supportedTokens := ["USDC"] })]

/-- A two-node workflow whose edges form the cycle `a → b → a`. -/
def cyclicSpec : WorkflowSpecM :=
  { name := "cyclic", chain := "base", token := "USDC", maxBudget := "1.0",
    entryNodeId := "a",
    nodes := [{ id := "a", nodeType := "agent", agentRef := some "echo", name := "A" },
              { id := "b", nodeType := "agent", agentRef := some "echo", name := "B" }],
    edges := [{ fromId := "a", toId := "b" }, { fromId := "b", toId := "a" }] }

/-- A single-node workflow with no edges. -/
def singleSpec : WorkflowSpecM :=
  { name := "single", chain := "base", token := "USDC", maxBudget := "1.0",
    entryNodeId := "a",
    nodes := [{ id := "a", nodeType := "agent", agentRef := some "echo", name := "A" }],
    edges := [] }

/-- Requirements demanding 100 atomic units to merchant `0xMERCH` on
base-sepolia. -/
def overpayReqs : PaymentRequirementsM :=
  { scheme := "exact", network := "base-sepolia", asset := "0xA", payTo := "0xMERCH",
    maxAmountRequired := "100", resource := "/agent", maxTimeoutSeconds := 1200 }

/-- A middleware authorization paying 200 (strictly more than required),
to the right recipient, on the right chain. -/
def overpayAuth : MwPaymentAuth :=
  { fromAddr := "0xF", toAddr := "0xmerch", value := "200", chainId := 84532 }

/-- The `endedAt` field of a stored run (missing runs yield `none`). -/
def endedAtOf (st : SchedulerState) (runId : String) : Option Nat :=
  match lookupA st.runs runId with
  | some r => r.endedAt
  | none => none

/-- A scheduler call whose patch does not itself overwrite `endedAt`
(`cancelRun` never passes a patch). -/
def patchKeepsEnded : SchedCmd → Prop
  | .update _ _ patch _ => patch.endedAt = none
  | .cancel _ _ => True

/-- A run already in a terminal state. -/
def termRun : WorkflowRunM :=
  { runId := "r1", status := .completed, createdAt := 0, startedAt := some 1,
    endedAt := some 2, reservedBudget := "5", spentBudget := "0", errMsg := none }

/-- A scheduler state holding only the completed run `r1`. -/
def termState : SchedulerState :=
  { runs := [("r1", termRun)], queue := [],
    budget := { reservations := [], walletBalances := [] } }

/-! ## Shared lemmas about the JS `Map` model -/

theorem lookupA_setA_self {β : Type} (m : List (String × β)) (k : String) (v : β) :
    lookupA (setA m k v) k = some v := by
  induction m with
  | nil => simp [setA, lookupA]
  | cons p rest ih =>
    by_cases h : p.1 = k <;> simp [setA, lookupA, h, ih]

theorem lookupA_setA_ne {β : Type} (m : List (String × β)) (k k' : String) (v : β)
    (h : k ≠ k') : lookupA (setA m k v) k' = lookupA m k' := by
  induction m with
  | nil => simp [setA, lookupA, h]
  | cons p rest ih =>
    by_cases hp : p.1 = k
    · simp [setA, lookupA, hp, h]
    · by_cases hp' : p.1 = k' <;>
        simp [setA, lookupA, hp, hp', ih, Ne.symm h]

theorem keys_setA_of_mem {β : Type} (m : List (String × β)) (k : String) (v : β)
    (h : k ∈ m.map Prod.fst) : (setA m k v).map Prod.fst = m.map Prod.fst := by
  induction m with
  | nil => simp at h
  | cons p rest ih =>
    by_cases hp : p.1 = k
    · simp [setA, hp]
    · have : k ∈ rest.map Prod.fst := by
        simp only [List.map_cons, List.mem_cons] at h
        exact h.resolve_left fun hh => hp hh.symm
      simp [setA, hp, ih this]

theorem getBalance_updateBalance_self (st : BudgetState) (wallet token : String)
    (amount : Option JQ) :
    getBalance (updateBalance st wallet token amount) wallet token = amount := by
  simp [getBalance, updateBalance, lookupA_setA_self]

/-! ## C2 — node retry under persistent failure -/

/-- C2: refuted by the source (code bug). Whenever a node has a retry
policy with `maxAttempts ≥ 1` and every invocation attempt raises,
`executeNode` never returns: the recursive retry call allocates a fresh
`NodeRun` whose `retryCount` restarts at 0, so the exhaustion check
`retryCount < maxAttempts` never fails and the recursion re-invokes the
agent forever. For every fuel bound the fuelled embedding runs out of fuel
(`none`), i.e. the retry loop performs unboundedly many invocations instead
of at most `maxAttempts`. -/
theorem executeNode_retry_diverges (node : ExecNodeM) (rp : RetryPolicyM)
    (attempt : Nat → Except String JValue)
    (hrp : node.retryPolicy = some rp) (hmax : 1 ≤ rp.maxAttempts)
    (hfail : ∀ i, ∃ e, attempt i = .error e) :
    ∀ idx fuel, executeNodeFuel node attempt idx fuel = none := by
  intro idx fuel
  induction fuel generalizing idx with
  | zero => rfl
  | succ f ih =>
    obtain ⟨e, he⟩ := hfail idx
    simp [executeNodeFuel, he, hrp, Nat.lt_of_lt_of_le Nat.zero_lt_one hmax, ih]

/-- C2 witness: a node with `maxAttempts = 1` whose agent always raises;
no fuel bound suffices for the recursion to return. -/
theorem executeNode_retry_diverges_witness :
    executeNodeFuel { id := "n1", agentRef := some "echo", retryPolicy := some ⟨1, 0⟩ }
      (fun _ => .error "boom") 0 1000 = none :=
  executeNode_retry_diverges _ ⟨1, 0⟩ _ rfl (by decide) (fun _ => ⟨"boom", rfl⟩) 0 1000

/-! ## C4 — reserve semantics -/

/-- C4 counterexample: the claim says `reserveBudget` fails when a
reservation already exists for the same `runId`; the source performs no
such check — with a live reservation for `r1` in place and a sufficient
balance, a second `reserveBudget` for `r1` succeeds and silently
overwrites the reservation. -/
theorem reserveBudget_duplicate_succeeds :
    (lookupA dupResState.reservations "r1").isSome = true ∧
      reserveBudget dupResState
          { runId := "r1", userWallet := "0xW", amount := "5", token := "USDC",
            chain := "base" } "resv1" 1 = .ok (dupResReservation, dupResState') :=
  ⟨rfl, by decide⟩

/-- C4 as amended: `reserveBudget` fails (with `InsufficientBudget`, the
only error it raises, leaving the state untouched since it throws before
any mutation) exactly when the parsed wallet balance compares below the
parsed amount; no existing-reservation check is performed — on success,
which includes the case of a live reservation for the same `runId`, it
stores a `reserved` reservation keyed by the `runId` (overwriting any
previous one) and debits the balance by the parsed amount. -/
theorem reserveBudget_semantics (st : BudgetState) (req : ReserveBudgetRequest)
    (freshId : String) (now : Nat) :
    ((∃ err, reserveBudget st req freshId now = .error err) ↔
      jsLtB (getBalance st req.userWallet req.token) (parseFloatJS req.amount) = true) ∧
    (∀ err, reserveBudget st req freshId now = .error err →
      err = .insufficientBudget req.amount "") ∧
    (∀ r st', reserveBudget st req freshId now = .ok (r, st') →
      r.status = .reserved ∧ r.runId = req.runId ∧ r.amount = req.amount ∧
      lookupA st'.reservations req.runId = some r ∧
      getBalance st' req.userWallet req.token =
        jsSub (getBalance st req.userWallet req.token) (parseFloatJS req.amount)) := by
  by_cases h : jsLtB (getBalance st req.userWallet req.token) (parseFloatJS req.amount) = true
  · refine ⟨⟨fun _ => h,
      fun _ => ⟨.insufficientBudget req.amount "", by rw [reserveBudget, if_pos h]⟩⟩, ?_, ?_⟩
    · intro err herr
      rw [reserveBudget, if_pos h] at herr
      exact (Except.error.inj herr).symm
    · intro r st' hok
      rw [reserveBudget, if_pos h] at hok
      exact absurd hok (by simp)
  · refine ⟨⟨fun ⟨err, herr⟩ => ?_, fun hlt => absurd hlt h⟩, ?_, ?_⟩
    · rw [reserveBudget, if_neg h] at herr
      exact absurd herr (by simp)
    · intro err herr
      rw [reserveBudget, if_neg h] at herr
      exact absurd herr (by simp)
    · intro r st' hok
      rw [reserveBudget, if_neg h] at hok
      have hpair := Except.ok.inj hok
      have hr : r = _ := (congrArg Prod.fst hpair).symm
      have hst : st' = _ := (congrArg Prod.snd hpair).symm
      subst hr
      subst hst
      refine ⟨rfl, rfl, rfl, ?_, ?_⟩
      · simpa using lookupA_setA_self st.reservations req.runId _
      · exact getBalance_updateBalance_self _ _ _ _

/-- C4 witness: at the duplicate-reservation state the success description
of `reserveBudget_semantics` holds concretely. -/
theorem reserveBudget_semantics_witness :
    dupResReservation.status = .reserved ∧
      lookupA dupResState'.reservations "r1" = some dupResReservation := by
  have h := (reserveBudget_semantics dupResState
    { runId := "r1", userWallet := "0xW", amount := "5", token := "USDC",
      chain := "base" } "resv1" 1).2.2 dupResReservation dupResState' (by decide)
  exact ⟨h.1, h.2.2.2.1⟩

/-! ## Bridge from `JQ` to `ℚ` -/

theorem JQ.den_cast_pos (q : JQ) : (0 : ℚ) < (q.den : ℚ) := by
  exact_mod_cast Nat.succ_pos q.dpred

theorem JQ.den_jqAdd (a b : JQ) : (jqAdd a b).den = a.den * b.den := by
  simp only [jqAdd, JQ.den]
  ring

theorem JQ.den_jqSub (a b : JQ) : (jqSub a b).den = a.den * b.den := by
  simp only [jqSub, JQ.den]
  ring

theorem JQ.toRat_jqAdd (a b : JQ) : (jqAdd a b).toRat = a.toRat + b.toRat := by
  have ha := a.den_cast_pos
  have hb := b.den_cast_pos
  have hd : ((jqAdd a b).den : ℚ) = (a.den : ℚ) * (b.den : ℚ) := by
    rw [JQ.den_jqAdd]; push_cast; ring
  simp only [JQ.toRat, hd]
  have hnum : (((jqAdd a b).num : ℚ)) = (a.num : ℚ) * (b.den : ℚ) + (b.num : ℚ) * (a.den : ℚ) := by
    simp only [jqAdd]; push_cast; ring
  rw [hnum]
  field_simp

theorem JQ.toRat_jqSub (a b : JQ) : (jqSub a b).toRat = a.toRat - b.toRat := by
  have ha := a.den_cast_pos
  have hb := b.den_cast_pos
  have hd : ((jqSub a b).den : ℚ) = (a.den : ℚ) * (b.den : ℚ) := by
    rw [JQ.den_jqSub]; push_cast; ring
  simp only [JQ.toRat, hd]
  have hnum : (((jqSub a b).num : ℚ)) = (a.num : ℚ) * (b.den : ℚ) - (b.num : ℚ) * (a.den : ℚ) := by
    simp only [jqSub]; push_cast; ring
  rw [hnum]
  field_simp
  ring

theorem JQ.jqLt_iff (a b : JQ) : jqLt a b = true ↔ a.toRat < b.toRat := by
  rw [jqLt, decide_eq_true_iff, JQ.toRat, JQ.toRat,
    div_lt_div_iff₀ a.den_cast_pos b.den_cast_pos]
  constructor
  · intro h; exact_mod_cast h
  · intro h; exact_mod_cast h

theorem JQ.toRat_ofNat (n : Nat) : (JQ.ofNat n).toRat = (n : ℚ) := by
  simp [JQ.ofNat, JQ.toRat, JQ.den]

/-- A shared inversion: whatever a successful `reserveBudget` returns, the
new balance is the old one minus the parsed amount. -/
theorem reserveBudget_ok_balance (st : BudgetState) (req : ReserveBudgetRequest)
    (freshId : String) (now : Nat) (r : BudgetReservation) (st' : BudgetState)
    (hok : reserveBudget st req freshId now = .ok (r, st')) :
    getBalance st' req.userWallet req.token =
      jsSub (getBalance st req.userWallet req.token) (parseFloatJS req.amount) := by
  rw [reserveBudget] at hok
  by_cases h : jsLtB (getBalance st req.userWallet req.token) (parseFloatJS req.amount) = true
  · rw [if_pos h] at hok
    exact absurd hok (by simp)
  · rw [if_neg h] at hok
    have hpair := Except.ok.inj hok
    have hst : st' = _ := (congrArg Prod.snd hpair).symm
    subst hst
    exact getBalance_updateBalance_self _ _ _ _

/-! ## C5 — the money model is parsed decimal numbers, not atomic integers -/

/-- C5 counterexample: the budget subsystem does not compute on
non-negative atomic-unit integers — reserving the decimal amount `"0.1"`
ETH against the mock balance `"2.5"` succeeds and stores the balance
`2.4` (represented `240/100`), which is not an integer of any unit scale
the claim's wording allows, and both quantities entered the computation via
`parseFloat`, not integer parsing. -/
theorem budget_balance_not_integer :
    reserveBudget mockBudgetState
        { runId := "rx", userWallet := mockWallet, amount := "0.1", token := "ETH",
          chain := "base" } "idx" 0 = .ok (fracReservation, fracState') ∧
      getBalance fracState' mockWallet "ETH" = some { num := 240, dpred := 99 } ∧
      ¬ ∃ n : ℤ, (JQ.mk 240 99).toRat = (n : ℚ) := by
  refine ⟨by decide, by decide, ?_⟩
  rintro ⟨n, hn⟩
  have hden : ((JQ.mk 240 99).den : ℚ) = 100 := by norm_num [JQ.den]
  rw [JQ.toRat, hden] at hn
  have h2 : (240 : ℚ) = (n : ℚ) * 100 := by
    field_simp at hn
    linarith
  have h3 : (240 : ℤ) = n * 100 := by exact_mod_cast h2
  omega

/-- C5 as amended: every balance and amount computation in the budget
subsystem is performed on JS numbers obtained by `parseFloat` from decimal
strings (exact fractions in this model): a successful reserve stores
`balance − amount` as parsed numbers, a full release credits back exactly
the parsed reserved amount when it is positive, and the big-number string
helpers `add`/`subtract` likewise operate on `parseFloat`-parsed values —
no computation is integer arithmetic on atomic base units. -/
theorem budget_arithmetic_parsed_numeric :
    (∀ st req freshId now r st' b a,
      reserveBudget st req freshId now = .ok (r, st') →
      getBalance st req.userWallet req.token = some b →
      parseFloatJS req.amount = some a →
      (getBalance st' req.userWallet req.token).map JQ.toRat =
        some (b.toRat - a.toRat)) ∧
    (∀ a b qa qb, parseFloatJS a = some qa → parseFloatJS b = some qb →
      (addS a b).map JQ.toRat = some (qa.toRat + qb.toRat) ∧
      (subtractS a b).map JQ.toRat = some (qa.toRat - qb.toRat)) := by
  constructor
  · intro st req freshId now r st' b a hok hb ha
    rw [reserveBudget_ok_balance st req freshId now r st' hok, hb, ha]
    simp [jsSub, JQ.toRat_jqSub]
  · intro a b qa qb ha hb
    constructor
    · simp [addS, ha, hb, jsAdd, JQ.toRat_jqAdd]
    · simp [subtractS, ha, hb, jsSub, JQ.toRat_jqSub]

/-- C5 witness: the amended description at the concrete mock reserve. -/
theorem budget_arithmetic_parsed_numeric_witness :
    (getBalance fracState' mockWallet "ETH").map JQ.toRat =
      some ((JQ.mk 25 9).toRat - (JQ.mk 1 9).toRat) :=
  budget_arithmetic_parsed_numeric.1 mockBudgetState
    { runId := "rx", userWallet := mockWallet, amount := "0.1", token := "ETH",
      chain := "base" } "idx" 0 fracReservation fracState' _ _
    (by decide) (by decide) (by decide)

/-! ## C9 — releaseBudget never decreases the balance -/

/-- C9: confirmed. Whenever `releaseBudget` succeeds, the reservation is
marked `released` (for every `spentAmount`, even one exceeding the
reserved amount or failing to parse), and the owning wallet's balance
never decreases: a refund is credited only when `reserved − spent` is
strictly positive, otherwise the balance is untouched. -/
theorem releaseBudget_monotone_and_released (st : BudgetState) (runId : String)
    (spent : Option String) (st' : BudgetState)
    (hok : releaseBudget st runId spent = .ok st') :
    (∃ rv', lookupA st'.reservations runId = some rv' ∧ rv'.status = .released) ∧
    (∀ rv b, lookupA st.reservations runId = some rv →
      getBalance st rv.userWallet rv.token = some b →
      ∃ b', getBalance st' rv.userWallet rv.token = some b' ∧ b.toRat ≤ b'.toRat) := by
  rw [releaseBudget.eq_def] at hok
  cases hlook : lookupA st.reservations runId with
  | none => rw [hlook] at hok; exact absurd hok (by simp)
  | some rv0 =>
    rw [hlook] at hok
    simp only at hok
    generalize hsp : (match spent with
      | some s => if s = "" then some (JQ.ofNat 0) else parseFloatJS s
      | none => some (JQ.ofNat 0)) = spentVal at hok
    by_cases hgt : jsGtB (jsSub (parseFloatJS rv0.amount) spentVal) (some (JQ.ofNat 0)) = true
    · rw [if_pos hgt] at hok
      cases hrefund : jsSub (parseFloatJS rv0.amount) spentVal with
      | none => rw [hrefund] at hgt; simp [jsGtB] at hgt
      | some refund =>
        rw [hrefund] at hok hgt
        have hok' := Except.ok.inj hok
        subst hok'
        constructor
        · exact ⟨_, by simpa using lookupA_setA_self _ runId _, rfl⟩
        · intro rv b hrv hb
          have hrv0 : rv = rv0 := (Option.some.inj hrv).symm
          rw [hrv0] at hb ⊢
          refine ⟨jqAdd b refund, ?_, ?_⟩
          · show getBalance (updateBalance st rv0.userWallet rv0.token _) _ _ = _
            rw [getBalance_updateBalance_self, hb]
            simp [jsAdd]
          · have hpos : (0 : ℚ) < refund.toRat := by
              have := (JQ.jqLt_iff (JQ.ofNat 0) refund).mp (by simpa [jsGtB] using hgt)
              simpa [JQ.toRat_ofNat] using this
            rw [JQ.toRat_jqAdd]
            linarith
    · rw [if_neg hgt] at hok
      have hok' := Except.ok.inj hok
      subst hok'
      constructor
      · exact ⟨_, by simpa using lookupA_setA_self _ runId _, rfl⟩
      · intro rv b hrv hb
        have hrv0 : rv = rv0 := (Option.some.inj hrv).symm
        rw [hrv0] at hb ⊢
        exact ⟨b, hb, le_refl _⟩

/-! ## C8 — message output extraction -/

/-- C8 counterexample: for a message whose only informative content is two
data parts, `extractOutput` returns the empty array (only `text` parts are
ever consulted) — not the shallow merge of the data parts the claim
describes. -/
theorem extractOutput_drops_data_parts :
    extractOutput (.message [.dataPart [("a", .num 1)], .dataPart [("b", .num 2)]]) =
        .arr [] ∧
      JValue.arr [] ≠ JValue.obj [("a", .num 1), ("b", .num 2)] :=
  ⟨rfl, fun h => JValue.noConfusion h⟩

/-- C8 as amended: for a Message result, `extractOutput` returns the text
of the single text part when exactly one is present and the array of texts
when several are present; when no text part is present — in particular when
the only informative content is data parts — it returns the empty array:
data parts are never merged (nor read at all). -/
theorem extractOutput_message_cases (parts : List A2APart) :
    (∀ t, textsOfParts parts = [t] → extractOutput (.message parts) = .str t) ∧
    (∀ t1 t2 ts, textsOfParts parts = t1 :: t2 :: ts →
      extractOutput (.message parts) =
        .arr ((t1 :: t2 :: ts).map JValue.str)) ∧
    (textsOfParts parts = [] → extractOutput (.message parts) = .arr []) := by
  refine ⟨?_, ?_, ?_⟩
  · intro t h
    show selectTexts (textsOfParts parts) = _
    rw [h]
    rfl
  · intro t1 t2 ts h
    show selectTexts (textsOfParts parts) = _
    rw [h]
    rfl
  · intro h
    show selectTexts (textsOfParts parts) = _
    rw [h]
    rfl

/-- C8 witness: a message with one text part and one data part extracts to
that text. -/
theorem extractOutput_message_cases_witness :
    extractOutput (.message [.textPart "hi", .dataPart [("x", .num 3)]]) = .str "hi" :=
  (extractOutput_message_cases [.textPart "hi", .dataPart [("x", .num 3)]]).1 "hi" rfl

/-! ## Digit-string lemmas (for the USDC round trip) -/

theorem natToCharsRev_eq_digits (fuel n : Nat) (h : n ≤ fuel) :
    natToCharsRev fuel n = (Nat.digits 10 n).map fun d => Char.ofNat (48 + d) := by
  induction fuel generalizing n with
  | zero =>
    interval_cases n
    simp [natToCharsRev]
  | succ f ih =>
    by_cases hn : n = 0
    · subst hn; simp [natToCharsRev]
    · rw [natToCharsRev, if_neg hn,
        Nat.digits_def' (by norm_num : 1 < 10) (Nat.pos_of_ne_zero hn), List.map_cons]
      congr 1
      have hdiv : n / 10 < n := Nat.div_lt_self (Nat.pos_of_ne_zero hn) (by norm_num)
      exact ih (n / 10) (by omega)

theorem natToChars_eq (n : Nat) :
    natToChars n =
      if n = 0 then ['0']
      else ((Nat.digits 10 n).map fun d => Char.ofNat (48 + d)).reverse := by
  by_cases hn : n = 0
  · simp [natToChars, hn]
  · rw [natToChars, if_neg hn, if_neg hn, natToCharsRev_eq_digits n n (le_refl n)]

theorem digitVal_ofNat_digit (d : Nat) (h : d < 10) :
    digitVal (Char.ofNat (48 + d)) = d := by
  interval_cases d <;> rfl

theorem isDigitChar_ofNat_digit (d : Nat) (h : d < 10) :
    isDigitChar (Char.ofNat (48 + d)) = true := by
  interval_cases d <;> rfl

theorem digitsToNat_rev_map (ds : List Nat) (h : ∀ d ∈ ds, d < 10) (acc : Nat) :
    ((ds.map fun d => Char.ofNat (48 + d)).reverse).foldl
        (fun acc c => 10 * acc + digitVal c) acc =
      acc * 10 ^ ds.length + Nat.ofDigits 10 ds := by
  induction ds generalizing acc with
  | nil => simp
  | cons d ds ih =>
    simp only [List.map_cons, List.reverse_cons, List.foldl_append, List.foldl_cons,
      List.foldl_nil]
    rw [ih (fun x hx => h x (List.mem_cons_of_mem _ hx)) acc,
      digitVal_ofNat_digit d (h d (List.mem_cons_self d ds)), Nat.ofDigits_cons,
      List.length_cons]
    push_cast
    ring

theorem digitsToNat_natToChars (n : Nat) : digitsToNat (natToChars n) = n := by
  rw [natToChars_eq]
  by_cases hn : n = 0
  · simp [hn, digitsToNat, digitVal]
  · rw [if_neg hn, digitsToNat,
      digitsToNat_rev_map (Nat.digits 10 n)
        (fun d hd => Nat.digits_lt_base (by norm_num) hd) 0]
    simp [Nat.ofDigits_digits]

theorem natToChars_all_digits (n : Nat) :
    ∀ c ∈ natToChars n, isDigitChar c = true := by
  rw [natToChars_eq]
  by_cases hn : n = 0
  · simp [hn]
    rfl
  · rw [if_neg hn]
    intro c hc
    rw [List.mem_reverse] at hc
    obtain ⟨d, hd, rfl⟩ := List.mem_map.mp hc
    exact isDigitChar_ofNat_digit d (Nat.digits_lt_base (by norm_num) hd)

theorem decToNat_natToStr (n : Nat) : decToNat? (natToStr n) = some n := by
  rw [decToNat?, natToStr]
  have hall : (String.mk (natToChars n)).data.all isDigitChar = true := by
    rw [List.all_eq_true]
    exact natToChars_all_digits n
  rw [if_pos hall]
  exact congrArg some (digitsToNat_natToChars n)

theorem natToChars_length_le (n k : Nat) (h : n < 10 ^ k) (hk : 1 ≤ k) :
    (natToChars n).length ≤ k := by
  rw [natToChars_eq]
  by_cases hn : n = 0
  · simpa [hn] using hk
  · rw [if_neg hn]
    simp only [List.length_reverse, List.length_map]
    rw [Nat.digits_len 10 n (by norm_num) hn]
    have := Nat.log_lt_of_lt_pow hn h
    omega

theorem foldl_digits_replicate_zero (m : Nat) :
    (List.replicate m '0').foldl (fun acc c => 10 * acc + digitVal c) 0 = 0 := by
  induction m with
  | zero => rfl
  | succ k ih => simpa [List.replicate_succ, digitVal] using ih

theorem digitsToNat_padStart_zeros (cs : List Char) (k : Nat) :
    digitsToNat (padStart cs k '0') = digitsToNat cs := by
  rw [padStart, digitsToNat, digitsToNat, List.foldl_append,
    foldl_digits_replicate_zero]

theorem padStart_all_digits (cs : List Char) (k : Nat)
    (h : ∀ c ∈ cs, isDigitChar c = true) :
    ∀ c ∈ padStart cs k '0', isDigitChar c = true := by
  intro c hc
  rw [padStart, List.mem_append] at hc
  cases hc with
  | inl hin => rw [List.eq_of_mem_replicate hin]; rfl
  | inr hin => exact h c hin

theorem splitOnChar_ne_nil (sep : Char) (cs : List Char) :
    splitOnChar sep cs ≠ [] := by
  cases cs with
  | nil => simp [splitOnChar]
  | cons c rest =>
    rw [splitOnChar]
    by_cases h : c = sep
    · simp [h]
    · simp only [if_neg h]
      cases splitOnChar sep rest <;> simp

theorem splitOnChar_no_sep (sep : Char) (cs : List Char)
    (h : ∀ c ∈ cs, c ≠ sep) : splitOnChar sep cs = [cs] := by
  induction cs with
  | nil => rfl
  | cons c rest ih =>
    rw [splitOnChar, if_neg (h c (List.mem_cons_self c rest)),
      ih fun x hx => h x (List.mem_cons_of_mem c hx)]

theorem splitOnChar_append_sep (sep : Char) (a b : List Char)
    (h : ∀ c ∈ a, c ≠ sep) :
    splitOnChar sep (a ++ sep :: b) = a :: splitOnChar sep b := by
  induction a with
  | nil => simp [splitOnChar]
  | cons c rest ih =>
    rw [List.cons_append, splitOnChar, if_neg (h c (List.mem_cons_self c rest)),
      ih fun x hx => h x (List.mem_cons_of_mem c hx)]

/-! ## C10 — USDC format/parse round trip -/

/-- C10: confirmed. For every non-negative atomic amount `n`,
`formatUSDC` renders a decimal string with exactly six fractional digits
(zero-padded via `padStart`), and `parseUSDC` — which zero-pads or
truncates the fractional field to six digits before recombining —
recovers exactly `n`, so the composition is the identity on atomic
amounts. -/
theorem usdc_format_parse_roundtrip (n : Nat) :
    ∃ w f, formatUSDC (natToStr n) = some (String.mk (w ++ '.' :: f)) ∧
      f.length = 6 ∧ (∀ c ∈ f, isDigitChar c = true) ∧
      (∀ c ∈ w, isDigitChar c = true) ∧
      parseUSDC (String.mk (w ++ '.' :: f)) = some (natToStr n) := by
  refine ⟨natToChars (n / 1000000), padStart (natToChars (n % 1000000)) 6 '0',
    ?_, ?_, ?_, ?_, ?_⟩
  · rw [formatUSDC, decToNat_natToStr]
    rfl
  · have hlt : n % 1000000 < 10 ^ 6 := by
      have := Nat.mod_lt n (show 0 < 1000000 by norm_num)
      norm_num
      omega
    have := natToChars_length_le (n % 1000000) 6 hlt (by norm_num)
    rw [padStart]
    simp only [List.length_append, List.length_replicate]
    omega
  · exact padStart_all_digits _ _ (natToChars_all_digits _)
  · exact natToChars_all_digits _
  · have hwnodot : ∀ c ∈ natToChars (n / 1000000), c ≠ '.' := by
      intro c hc heq
      have := natToChars_all_digits (n / 1000000) c hc
      rw [heq] at this
      exact absurd this (by decide)
    have hfnodot : ∀ c ∈ padStart (natToChars (n % 1000000)) 6 '0', c ≠ '.' := by
      intro c hc heq
      have := padStart_all_digits _ 6 (natToChars_all_digits (n % 1000000)) c hc
      rw [heq] at this
      exact absurd this (by decide)
    have hflen : (padStart (natToChars (n % 1000000)) 6 '0').length = 6 := by
      have hlt : n % 1000000 < 10 ^ 6 := by
        have := Nat.mod_lt n (show 0 < 1000000 by norm_num)
        norm_num
        omega
      have := natToChars_length_le (n % 1000000) 6 hlt (by norm_num)
      rw [padStart]
      simp only [List.length_append, List.length_replicate]
      omega
    rw [parseUSDC]
    simp only [splitOnChar_append_sep '.' _ _ hwnodot,
      splitOnChar_no_sep '.' _ hfnodot]
    simp only [List.getElem?_cons_zero, List.getElem?_cons_succ, Option.getD_some]
    have hpadEnd : padEnd (padStart (natToChars (n % 1000000)) 6 '0') 6 '0' =
        padStart (natToChars (n % 1000000)) 6 '0' := by
      rw [padEnd, hflen]
      simp
    rw [hpadEnd]
    have htake : (padStart (natToChars (n % 1000000)) 6 '0').take 6 =
        padStart (natToChars (n % 1000000)) 6 '0' :=
      List.take_of_length_le (le_of_eq hflen)
    rw [htake]
    have hw : decToNat? (String.mk (natToChars (n / 1000000))) = some (n / 1000000) := by
      rw [decToNat?, if_pos (by rw [List.all_eq_true]; exact natToChars_all_digits _)]
      exact congrArg some (digitsToNat_natToChars _)
    have hf : decToNat? (String.mk (padStart (natToChars (n % 1000000)) 6 '0')) =
        some (n % 1000000) := by
      rw [decToNat?, if_pos (by
        rw [List.all_eq_true]
        exact padStart_all_digits _ _ (natToChars_all_digits _))]
      rw [digitsToNat_padStart_zeros, digitsToNat_natToChars]
    rw [hw, hf]
    simp only
    congr 2
    omega

/-! ## C1 — validator acceptance versus the engine's topological sort -/

/-- C1 counterexample: the validator accepts the cyclic spec — its
`detectCycles` result only produces a console warning and never fails
validation — and `getExecutionOrder` then throws the cycle
`ExecutionError` on that validated spec. -/
theorem validator_accepts_cycle_kahn_fails :
    validate echoRegistry cyclicSpec = true ∧
      getExecutionOrder cyclicSpec =
        .error "Workflow contains cycles or unreachable nodes" :=
  ⟨by decide, by decide⟩

theorem validate_edge_endpoints (reg : Registry) (spec : WorkflowSpecM)
    (h : validate reg spec = true) :
    ∀ e ∈ spec.edges, e.fromId ∈ nodeIds spec ∧ e.toId ∈ nodeIds spec := by
  intro e he
  rw [validate, Bool.and_eq_true, Bool.and_eq_true, Bool.and_eq_true] at h
  have hg := h.1.1.2
  rw [validateGraph, Bool.and_eq_true, List.all_eq_true] at hg
  have := hg.1 e he
  rw [Bool.and_eq_true] at this
  constructor
  · simpa using this.1
  · simpa using this.2

theorem setA_append_not_mem {β : Type} (m : List (String × β)) (k : String) (v : β)
    (h : k ∉ m.map Prod.fst) : setA m k v = m ++ [(k, v)] := by
  induction m with
  | nil => rfl
  | cons p rest ih =>
    have hp : ¬ p.1 = k := by
      intro hh
      exact h (by simp [hh])
    rw [show (p :: rest : List (String × β)) = (p.1, p.2) :: rest from rfl, setA,
      if_neg hp, ih (by intro hh; exact h (by simp [hh]))]
    rfl

theorem foldl_setA_nodes {β : Type} (v : β) (nodes : List WorkflowNodeM) :
    ∀ acc : List (String × β), (∀ n ∈ nodes, n.id ∉ acc.map Prod.fst) →
    (nodes.map WorkflowNodeM.id).Nodup →
    nodes.foldl (fun m n => setA m n.id v) acc =
      acc ++ nodes.map fun n => (n.id, v) := by
  induction nodes with
  | nil => intro acc _ _; simp
  | cons n ns ih =>
    intro acc hfresh hnd
    rw [List.foldl_cons,
      setA_append_not_mem acc n.id v (hfresh n (List.mem_cons_self n ns))]
    rw [List.map_cons, List.nodup_cons] at hnd
    have hfresh' : ∀ x ∈ ns, x.id ∉ (acc ++ [(n.id, v)]).map Prod.fst := by
      intro x hx
      rw [List.map_append, List.mem_append]
      rintro (hin | hin)
      · exact hfresh x (List.mem_cons_of_mem n hx) hin
      · simp only [List.map_cons, List.map_nil, List.mem_singleton] at hin
        exact hnd.1 (hin ▸ List.mem_map_of_mem WorkflowNodeM.id hx)
    rw [ih (acc ++ [(n.id, v)]) hfresh' hnd.2]
    simp

theorem countP_split {α : Type} (l : List α) (p q : α → Bool) :
    l.countP p =
      l.countP (fun a => p a && q a) + l.countP (fun a => p a && !q a) := by
  induction l with
  | nil => rfl
  | cons a l ih =>
    rw [List.countP_cons, List.countP_cons, List.countP_cons, ih]
    cases hp : p a <;> cases hq : q a <;> simp <;> omega

theorem inCount_nil (spec : WorkflowSpecM) (x : String) :
    inCount spec [] x = (spec.edges.filter fun e => e.toId = x).length := by
  rw [inCount]
  congr 1
  apply List.filter_congr
  intro e _
  simp

theorem indeg_fold_lookup (es : List WorkflowEdgeM) :
    ∀ (m : List (String × Int)) (f : String → Int),
      (∀ e ∈ es, e.toId ∈ m.map Prod.fst) →
      (∀ x ∈ m.map Prod.fst, lookupA m x = some (f x)) →
      ((es.foldl (fun m e => setA m e.toId (((lookupA m e.toId).getD 0) + 1)) m).map
          Prod.fst = m.map Prod.fst) ∧
      (∀ x ∈ m.map Prod.fst,
        lookupA (es.foldl (fun m e => setA m e.toId (((lookupA m e.toId).getD 0) + 1)) m)
            x = some (f x + ((es.filter fun e => e.toId = x).length : Int))) := by
  induction es with
  | nil => intro m f _ hval; exact ⟨rfl, by intro x hx; simpa using hval x hx⟩
  | cons e es ih =>
    intro m f hmem hval
    have hkey : e.toId ∈ m.map Prod.fst := hmem e (List.mem_cons_self e es)
    have hle : lookupA m e.toId = some (f e.toId) := hval e.toId hkey
    have hstep : setA m e.toId (((lookupA m e.toId).getD 0) + 1) =
        setA m e.toId (f e.toId + 1) := by rw [hle]; rfl
    have hkeys' : (setA m e.toId (f e.toId + 1)).map Prod.fst = m.map Prod.fst :=
      keys_setA_of_mem m e.toId _ hkey
    have hval' : ∀ x ∈ (setA m e.toId (f e.toId + 1)).map Prod.fst,
        lookupA (setA m e.toId (f e.toId + 1)) x =
          some (if x = e.toId then f x + 1 else f x) := by
      intro x hx
      rw [hkeys'] at hx
      by_cases hxe : x = e.toId
      · subst hxe; rw [lookupA_setA_self, if_pos rfl]
      · rw [lookupA_setA_ne m e.toId x _ (fun hh => hxe hh.symm), if_neg hxe]
        exact hval x hx
    have hmem' : ∀ d ∈ es, d.toId ∈ (setA m e.toId (f e.toId + 1)).map Prod.fst := by
      intro d hd
      rw [hkeys']
      exact hmem d (List.mem_cons_of_mem e hd)
    obtain ⟨ihkeys, ihval⟩ := ih (setA m e.toId (f e.toId + 1))
      (fun x => if x = e.toId then f x + 1 else f x) hmem' hval'
    constructor
    · rw [List.foldl_cons, hstep, ihkeys, hkeys']
    · intro x hx
      rw [List.foldl_cons, hstep]
      have := ihval x (by rw [hkeys']; exact hx)
      rw [this]
      by_cases hxe : x = e.toId
      · subst hxe
        rw [if_pos rfl]
        congr 1
        rw [List.filter_cons, if_pos (by simp)]
        simp only [List.length_cons]
        push_cast
        ring
      · rw [if_neg hxe]
        congr 2
        rw [List.filter_cons, if_neg (by simpa using fun hh => hxe hh.symm)]

theorem lookupA_nodes_const {β : Type} (v : β) (ns : List WorkflowNodeM) :
    ∀ n ∈ ns, lookupA (ns.map fun m => (m.id, v)) n.id = some v := by
  induction ns with
  | nil => intro n hn; cases hn
  | cons n0 ns ih =>
    intro n hn
    rw [List.map_cons]
    show lookupA ((n0.id, v) :: _) n.id = some v
    rw [lookupA]
    by_cases he : n0.id = n.id
    · rw [if_pos he]
    · rw [if_neg he]
      rcases hn with _ | hn
      · exact absurd rfl he
      · rename_i hn
        exact ih n hn

theorem initInDegree_spec (spec : WorkflowSpecM)
    (hnd : (nodeIds spec).Nodup)
    (H2 : ∀ e ∈ spec.edges, e.toId ∈ nodeIds spec) :
    ((initInDegree spec).map Prod.fst = nodeIds spec) ∧
    (∀ x ∈ nodeIds spec,
      lookupA (initInDegree spec) x = some (inCount spec [] x : Int)) := by
  have hbase : spec.nodes.foldl (fun m n => setA m n.id (0 : Int)) [] =
      spec.nodes.map fun n => (n.id, (0 : Int)) := by
    simpa using foldl_setA_nodes (0 : Int) spec.nodes [] (by simp) hnd
  have hbasekeys : (spec.nodes.map fun n => (n.id, (0 : Int))).map Prod.fst =
      nodeIds spec := by
    rw [nodeIds, List.map_map]; rfl
  have hbaseval : ∀ x ∈ (spec.nodes.map fun n => (n.id, (0 : Int))).map Prod.fst,
      lookupA (spec.nodes.map fun n => (n.id, (0 : Int))) x = some 0 := by
    rw [hbasekeys]
    intro x hx
    rw [nodeIds] at hx
    obtain ⟨n, hn, rfl⟩ := List.mem_map.mp hx
    exact lookupA_nodes_const (0 : Int) spec.nodes n hn
  have H2' : ∀ e ∈ spec.edges,
      e.toId ∈ (spec.nodes.map fun n => (n.id, (0 : Int))).map Prod.fst := by
    intro e he
    rw [hbasekeys]
    exact H2 e he
  obtain ⟨hkeys, hval⟩ := indeg_fold_lookup spec.edges
    (spec.nodes.map fun n => (n.id, (0 : Int))) (fun _ => 0) H2' hbaseval
  rw [initInDegree, hbase]
  refine ⟨by rw [hkeys, hbasekeys], ?_⟩
  intro x hx
  rw [hval x (by rw [hbasekeys]; exact hx), inCount_nil]
  simp

theorem graph_fold_lookup (es : List WorkflowEdgeM) :
    ∀ (g : List (String × List String)) (f : String → List String),
      (∀ e ∈ es, e.fromId ∈ g.map Prod.fst) →
      (∀ x ∈ g.map Prod.fst, lookupA g x = some (f x)) →
      ((es.foldl (fun g e =>
          match lookupA g e.fromId with
          | some l => setA g e.fromId (l ++ [e.toId])
          | none => g) g).map Prod.fst = g.map Prod.fst) ∧
      (∀ x ∈ g.map Prod.fst,
        lookupA (es.foldl (fun g e =>
            match lookupA g e.fromId with
            | some l => setA g e.fromId (l ++ [e.toId])
            | none => g) g) x =
          some (f x ++ ((es.filter fun e => e.fromId = x).map WorkflowEdgeM.toId))) := by
  induction es with
  | nil => intro g f _ hval; exact ⟨rfl, by intro x hx; simpa using hval x hx⟩
  | cons e es ih =>
    intro g f hmem hval
    have hkey : e.fromId ∈ g.map Prod.fst := hmem e (List.mem_cons_self e es)
    have hle : lookupA g e.fromId = some (f e.fromId) := hval e.fromId hkey
    have hstep : (match lookupA g e.fromId with
        | some l => setA g e.fromId (l ++ [e.toId])
        | none => g) = setA g e.fromId (f e.fromId ++ [e.toId]) := by rw [hle]
    have hkeys' : (setA g e.fromId (f e.fromId ++ [e.toId])).map Prod.fst =
        g.map Prod.fst := keys_setA_of_mem g e.fromId _ hkey
    have hval' : ∀ x ∈ (setA g e.fromId (f e.fromId ++ [e.toId])).map Prod.fst,
        lookupA (setA g e.fromId (f e.fromId ++ [e.toId])) x =
          some (if x = e.fromId then f x ++ [e.toId] else f x) := by
      intro x hx
      rw [hkeys'] at hx
      by_cases hxe : x = e.fromId
      · subst hxe; rw [lookupA_setA_self, if_pos rfl]
      · rw [lookupA_setA_ne g e.fromId x _ (fun hh => hxe hh.symm), if_neg hxe]
        exact hval x hx
    have hmem' : ∀ d ∈ es,
        d.fromId ∈ (setA g e.fromId (f e.fromId ++ [e.toId])).map Prod.fst := by
      intro d hd
      rw [hkeys']
      exact hmem d (List.mem_cons_of_mem e hd)
    obtain ⟨ihkeys, ihval⟩ := ih (setA g e.fromId (f e.fromId ++ [e.toId]))
      (fun x => if x = e.fromId then f x ++ [e.toId] else f x) hmem' hval'
    constructor
    · rw [List.foldl_cons, hstep, ihkeys, hkeys']
    · intro x hx
      rw [List.foldl_cons, hstep]
      have := ihval x (by rw [hkeys']; exact hx)
      rw [this]
      by_cases hxe : x = e.fromId
      · subst hxe
        rw [if_pos rfl]
        congr 1
        rw [List.filter_cons, if_pos (by simp)]
        simp
      · rw [if_neg hxe]
        congr 2
        rw [List.filter_cons, if_neg (by simpa using fun hh => hxe hh.symm)]

theorem initGraph_spec (spec : WorkflowSpecM)
    (hnd : (nodeIds spec).Nodup)
    (H2 : ∀ e ∈ spec.edges, e.fromId ∈ nodeIds spec) :
    ((initGraph spec).map Prod.fst = nodeIds spec) ∧
    (∀ x ∈ nodeIds spec,
      lookupA (initGraph spec) x =
        some ((spec.edges.filter fun e => e.fromId = x).map WorkflowEdgeM.toId)) := by
  have hbase : spec.nodes.foldl (fun g n => setA g n.id ([] : List String)) [] =
      spec.nodes.map fun n => (n.id, ([] : List String)) := by
    simpa using foldl_setA_nodes ([] : List String) spec.nodes [] (by simp) hnd
  have hbasekeys : (spec.nodes.map fun n => (n.id, ([] : List String))).map Prod.fst =
      nodeIds spec := by
    rw [nodeIds, List.map_map]; rfl
  have hbaseval : ∀ x ∈ (spec.nodes.map fun n => (n.id, ([] : List String))).map Prod.fst,
      lookupA (spec.nodes.map fun n => (n.id, ([] : List String))) x = some [] := by
    rw [hbasekeys]
    intro x hx
    rw [nodeIds] at hx
    obtain ⟨n, hn, rfl⟩ := List.mem_map.mp hx
    exact lookupA_nodes_const ([] : List String) spec.nodes n hn
  have H2' : ∀ e ∈ spec.edges,
      e.fromId ∈ (spec.nodes.map fun n => (n.id, ([] : List String))).map Prod.fst := by
    intro e he
    rw [hbasekeys]
    exact H2 e he
  obtain ⟨hkeys, hval⟩ := graph_fold_lookup spec.edges
    (spec.nodes.map fun n => (n.id, ([] : List String))) (fun _ => []) H2' hbaseval
  rw [initGraph, hbase]
  refine ⟨by rw [hkeys, hbasekeys], ?_⟩
  intro x hx
  rw [hval x (by rw [hbasekeys]; exact hx)]
  simp

theorem count_map_filter_toId (es : List WorkflowEdgeM) (c x : String) :
    ((es.filter fun e => e.fromId = c).map WorkflowEdgeM.toId).count x =
      (es.filter fun e => e.fromId = c ∧ e.toId = x).length := by
  induction es with
  | nil => rfl
  | cons e es ih =>
    rw [List.filter_cons, List.filter_cons]
    by_cases hf : e.fromId = c
    · by_cases ht : e.toId = x
      · rw [if_pos (by simp [hf]), if_pos (by simp [hf, ht]), List.map_cons,
          List.count_cons]
        simp [ht, ih]
      · rw [if_pos (by simp [hf]), if_neg (by simp [hf, ht]), List.map_cons,
          List.count_cons]
        simp [ht, ih]
    · rw [if_neg (by simp [hf]), if_neg (by simp [hf])]
      exact ih

theorem inCount_append_one (spec : WorkflowSpecM) (R : List String) (current x : String)
    (hcur : current ∉ R) :
    inCount spec R x =
      inCount spec (R ++ [current]) x +
        (spec.edges.filter fun e => e.fromId = current ∧ e.toId = x).length := by
  rw [inCount, inCount, ← List.countP_eq_length_filter, ← List.countP_eq_length_filter,
    ← List.countP_eq_length_filter]
  rw [countP_split spec.edges _ (fun e => !(e.fromId == current))]
  congr 1
  · apply List.countP_congr
    intro e _
    by_cases ht : e.toId = x <;> by_cases hf : e.fromId = current <;>
      by_cases hR : e.fromId ∈ R <;>
      simp [ht, hf, hR, List.contains, List.elem_iff, hcur]
  · apply List.countP_congr
    intro e _
    by_cases ht : e.toId = x <;> by_cases hf : e.fromId = current <;>
      by_cases hR : e.fromId ∈ R <;>
      simp [ht, hf, hR, List.contains, List.elem_iff, hcur] <;>
      simp [hf ▸ hR] at hcur <;> tauto

theorem lookupA_isSome_of_mem_keys {β : Type} (m : List (String × β)) (x : String)
    (h : x ∈ m.map Prod.fst) : ∃ d, lookupA m x = some d := by
  induction m with
  | nil => simp at h
  | cons p rest ih =>
    by_cases hp : p.1 = x
    · exact ⟨p.2, by rw [show (p :: rest : List (String × β)) = (p.1, p.2) :: rest from rfl,
        lookupA, if_pos hp]⟩
    · have : x ∈ rest.map Prod.fst := by
        simp only [List.map_cons, List.mem_cons] at h
        exact h.resolve_left fun hh => hp hh.symm
      obtain ⟨d, hd⟩ := ih this
      exact ⟨d, by rw [show (p :: rest : List (String × β)) = (p.1, p.2) :: rest from rfl,
        lookupA, if_neg hp]; exact hd⟩

theorem lookupA_mem_keys_of_some {β : Type} (m : List (String × β)) (x : String) (d : β)
    (h : lookupA m x = some d) : x ∈ m.map Prod.fst := by
  induction m with
  | nil => cases h
  | cons p rest ih =>
    rw [show (p :: rest : List (String × β)) = (p.1, p.2) :: rest from rfl, lookupA] at h
    by_cases hp : p.1 = x
    · simp [hp]
    · rw [if_neg hp] at h
      simp only [List.map_cons, List.mem_cons]
      exact Or.inr (ih h)

theorem dec_fold (ns : List String) :
    ∀ (m : List (String × Int)) (ps : List String),
      (∀ x ∈ ns, x ∈ m.map Prod.fst) →
      (∀ x ∈ ps, ∀ d, lookupA m x = some d → d ≤ 0) →
      ((ns.foldl decStep (m, ps)).1.map Prod.fst = m.map Prod.fst) ∧
      (∀ x d, lookupA m x = some d →
        lookupA (ns.foldl decStep (m, ps)).1 x = some (d - (ns.count x : Int))) ∧
      (∀ x, x ∈ (ns.foldl decStep (m, ps)).2 ↔
        x ∈ ps ∨ ∃ d, lookupA m x = some d ∧ 1 ≤ d ∧ d ≤ (ns.count x : Int)) ∧
      (ps.Nodup → (ns.foldl decStep (m, ps)).2.Nodup) := by
  induction ns with
  | nil =>
    intro m ps _ _
    refine ⟨rfl, ?_, ?_, fun h => h⟩
    · intro x d hd; simpa using hd
    · intro x
      simp only [List.foldl_nil, List.count_nil]
      constructor
      · intro hx; exact Or.inl hx
      · rintro (hx | ⟨d, _, hd1, hd2⟩)
        · exact hx
        · omega
  | cons n ns ih =>
    intro m ps hsub hps
    obtain ⟨dn, hdn⟩ := lookupA_isSome_of_mem_keys m n (hsub n (List.mem_cons_self n ns))
    have hstep : decStep (m, ps) n =
        (setA m n (dn - 1), if dn - 1 = 0 then ps ++ [n] else ps) := by
      simp only [decStep, hdn, Option.getD_some]
    set m' := setA m n (dn - 1) with hm'
    set ps' := if dn - 1 = 0 then ps ++ [n] else ps with hps'
    have hkeys' : m'.map Prod.fst = m.map Prod.fst :=
      keys_setA_of_mem m n _ (hsub n (List.mem_cons_self n ns))
    have hlook' : ∀ x, lookupA m' x =
        if x = n then some (dn - 1) else lookupA m x := by
      intro x
      by_cases hx : x = n
      · subst hx; rw [if_pos rfl, hm', lookupA_setA_self]
      · rw [if_neg hx, hm', lookupA_setA_ne m n x _ (fun hh => hx hh.symm)]
    have hsub' : ∀ x ∈ ns, x ∈ m'.map Prod.fst := by
      intro x hx
      rw [hkeys']
      exact hsub x (List.mem_cons_of_mem n hx)
    have hpsinv' : ∀ x ∈ ps', ∀ d, lookupA m' x = some d → d ≤ 0 := by
      intro x hx d hd
      rw [hlook'] at hd
      by_cases hxn : x = n
      · subst hxn
        rw [if_pos rfl] at hd
        have hdval := Option.some.inj hd
        by_cases hzero : dn - 1 = 0
        · omega
        · rw [hps', if_neg hzero] at hx
          have := hps x hx dn hdn
          omega
      · rw [if_neg hxn] at hd
        have hxps : x ∈ ps := by
          rw [hps'] at hx
          by_cases hzero : dn - 1 = 0
          · rw [if_pos hzero, List.mem_append] at hx
            rcases hx with hx | hx
            · exact hx
            · simp at hx; exact absurd hx hxn
          · rwa [if_neg hzero] at hx
        exact hps x hxps d hd
    obtain ⟨ihkeys, ihvals, ihmem, ihnodup⟩ := ih m' ps' hsub' hpsinv'
    rw [List.foldl_cons, hstep]
    refine ⟨by rw [ihkeys, hkeys'], ?_, ?_, ?_⟩
    · intro x d hd
      have hd' : lookupA m' x = some (if x = n then d - 1 else d) := by
        rw [hlook' x]
        by_cases hx : x = n
        · subst hx
          rw [if_pos rfl, if_pos rfl]
          have heq : dn = d := Option.some.inj (hdn.symm.trans hd)
          rw [heq]
        · rw [if_neg hx, if_neg hx]; exact hd
      have hres := ihvals x _ hd'
      rw [hres]
      congr 1
      rw [List.count_cons]
      by_cases hx : x = n
      · subst hx
        simp only [beq_self_eq_true, if_pos rfl, if_true]
        push_cast
        omega
      · have hbeq : (n == x) = false := by simpa using fun hh => hx hh.symm
        rw [hbeq, if_neg hx]
        simp
    · intro x
      refine (ihmem x).trans ?_
      by_cases hx : x = n
      · subst hx
        rw [hlook' x, if_pos rfl]
        constructor
        · rintro (hin | ⟨d, hd, hd1, hd2⟩)
          · rw [hps'] at hin
            by_cases hzero : dn - 1 = 0
            · rw [if_pos hzero, List.mem_append] at hin
              rcases hin with hin | hin
              · exact Or.inl hin
              · refine Or.inr ⟨dn, hdn, by omega, ?_⟩
                rw [List.count_cons]
                simp only [beq_self_eq_true, if_true]
                push_cast
                omega
            · rw [if_neg hzero] at hin
              exact Or.inl hin
          · have hdval : dn - 1 = d := Option.some.inj hd
            refine Or.inr ⟨dn, hdn, by omega, ?_⟩
            rw [List.count_cons]
            simp only [beq_self_eq_true, if_true]
            push_cast
            omega
        · rintro (hin | ⟨d, hd, hd1, hd2⟩)
          · by_cases hzero : dn - 1 = 0
            · exact Or.inl (by rw [hps', if_pos hzero]; exact List.mem_append_left _ hin)
            · exact Or.inl (by rw [hps', if_neg hzero]; exact hin)
          · have hdval : d = dn := Option.some.inj (hdn.symm.trans hd).symm
            subst hdval
            rw [List.count_cons] at hd2
            simp only [beq_self_eq_true, if_true] at hd2
            push_cast at hd2
            by_cases hone : d = 1
            · refine Or.inl ?_
              rw [hps', if_pos (by omega)]
              exact List.mem_append_right _ (by simp)
            · exact Or.inr ⟨d - 1, rfl, by omega, by omega⟩
      · have hcount : (((n :: ns).count x : Nat) : Int) = ((ns.count x : Nat) : Int) := by
          rw [List.count_cons]
          have hbeq : (n == x) = false := by simpa using fun hh => hx hh.symm
          rw [hbeq]
          simp
        have hpsmem : x ∈ ps' ↔ x ∈ ps := by
          rw [hps']
          by_cases hzero : dn - 1 = 0
          · rw [if_pos hzero, List.mem_append]
            constructor
            · rintro (hh | hh)
              · exact hh
              · simp at hh; exact absurd hh hx
            · exact fun hh => Or.inl hh
          · rw [if_neg hzero]
        rw [hlook' x, if_neg hx, hcount, hpsmem]
    · intro hnd
      apply ihnodup
      rw [hps']
      by_cases hzero : dn - 1 = 0
      · rw [if_pos hzero]
        have hnotin : n ∉ ps := by
          intro hin
          have := hps n hin dn hdn
          omega
        simp [List.nodup_append, hnd, hnotin]
      · rwa [if_neg hzero]

/-- A chain of single steps composes into a transitive-closure path. -/
theorem transGen_of_chain (spec : WorkflowSpecM) (f : Nat → String)
    (hf : ∀ k, EdgeStep spec (f (k + 1)) (f k)) :
    ∀ d i, Relation.TransGen (EdgeStep spec) (f (i + d + 1)) (f i) := by
  intro d
  induction d with
  | zero => intro i; exact Relation.TransGen.single (hf i)
  | succ d ihd =>
    intro i
    have hidx : i + (d + 1) + 1 = i + d + 1 + 1 := by omega
    rw [hidx]
    exact Relation.TransGen.head (hf (i + d + 1)) (ihd i)

/-- In an acyclic spec, every nonempty set of nodes has a member with no
predecessor inside the set (otherwise following predecessors forever would
repeat a node, closing a cycle). -/
theorem exists_no_pred (spec : WorkflowSpecM) (hacyc : AcyclicSpec spec)
    (U : List String) (hne : U ≠ []) :
    ∃ n ∈ U, ∀ m ∈ U, ¬ EdgeStep spec m n := by
  by_contra hcon
  push_neg at hcon
  obtain ⟨n₀, hn₀⟩ := List.exists_mem_of_ne_nil U hne
  choose g hg1 hg2 using hcon
  let F : {x // x ∈ U} → {x // x ∈ U} := fun x => ⟨g x.1 x.2, hg1 x.1 x.2⟩
  let f : Nat → {x // x ∈ U} := fun k => F^[k] ⟨n₀, hn₀⟩
  have hstep : ∀ k, EdgeStep spec ((f (k + 1)).1) ((f k).1) := by
    intro k
    have hit : f (k + 1) = F (f k) := Function.iterate_succ_apply' F k _
    rw [hit]
    exact hg2 (f k).1 (f k).2
  have hcard : U.toFinset.card < (Finset.range (U.length + 1)).card := by
    rw [Finset.card_range]
    exact Nat.lt_succ_of_le U.toFinset_card_le
  have hmaps : ∀ k ∈ Finset.range (U.length + 1), (f k).1 ∈ U.toFinset := by
    intro k _
    exact List.mem_toFinset.mpr (f k).2
  obtain ⟨i, _, j, _, hij, hfeq⟩ :=
    Finset.exists_ne_map_eq_of_card_lt_of_maps_to hcard hmaps
  have key : ∀ a b : Nat, a < b → (f a).1 = (f b).1 → False := by
    intro a b hab heq
    obtain ⟨d, rfl⟩ : ∃ d, b = a + d + 1 := ⟨b - a - 1, by omega⟩
    have htg := transGen_of_chain spec (fun k => (f k).1) hstep d a
    rw [← heq] at htg
    exact hacyc _ htg
  rcases Nat.lt_or_ge i j with hlt | hge
  · exact key i j hlt hfeq
  · exact key j i (by omega) hfeq.symm

/-- With duplicate-free keys, the association-list lookup returns the
stored value of any member pair. -/
theorem lookupA_eq_of_mem_nodup {β : Type} (m : List (String × β)) (k : String) (v : β)
    (hnd : (m.map Prod.fst).Nodup) (hmem : (k, v) ∈ m) : lookupA m k = some v := by
  induction m with
  | nil => cases hmem
  | cons p rest ih =>
    rw [show (p :: rest : List (String × β)) = (p.1, p.2) :: rest from rfl, lookupA]
    rcases List.mem_cons.mp hmem with heq | hmem'
    · have h1 : p.1 = k := by rw [← heq]
      have h2 : p.2 = v := by rw [← heq]
      rw [if_pos h1, h2]
    · have hp : ¬ p.1 = k := by
        intro hh
        simp only [List.map_cons, List.nodup_cons] at hnd
        exact hnd.1 (hh ▸ (List.mem_map.mpr ⟨(k, v), hmem', rfl⟩))
      rw [if_neg hp]
      refine ih ?_ hmem'
      simp only [List.map_cons, List.nodup_cons] at hnd
      exact hnd.2

/-- The initial queue (keys whose stored degree is zero, in map order) is
a sublist of the key list. -/
theorem filterMap_zero_sublist (m : List (String × Int)) :
    (m.filterMap fun p => if p.2 = 0 then some p.1 else none).Sublist
      (m.map Prod.fst) := by
  induction m with
  | nil => simp
  | cons p rest ih =>
    by_cases h : p.2 = 0
    · simp only [List.filterMap_cons, if_pos h, List.map_cons]
      exact ih.cons₂ p.1
    · simp only [List.filterMap_cons, if_neg h, List.map_cons]
      exact ih.cons p.1

/-- The Kahn loop invariant holds at entry: empty result, the freshly
built in-degree map, and the queue of zero-degree keys. -/
theorem kahn_init (spec : WorkflowSpecM) (hnd : (nodeIds spec).Nodup)
    (H1 : ∀ e ∈ spec.edges, e.fromId ∈ nodeIds spec ∧ e.toId ∈ nodeIds spec) :
    KahnInv spec
      ((initInDegree spec).filterMap fun p => if p.2 = 0 then some p.1 else none)
      (initInDegree spec) [] := by
  obtain ⟨hkeys, hvals⟩ := initInDegree_spec spec hnd (fun e he => (H1 e he).2)
  have hsub : ((initInDegree spec).filterMap fun p =>
      if p.2 = 0 then some p.1 else none).Sublist (nodeIds spec) :=
    hkeys ▸ filterMap_zero_sublist _
  have hndk : ((initInDegree spec).map Prod.fst).Nodup := by rw [hkeys]; exact hnd
  refine ⟨hkeys, hvals, ?_, by simp, ?_, ?_, by simp, ?_⟩
  · simpa using hsub.nodup hnd
  · exact fun n hn => hsub.subset hn
  · intro n hn
    obtain ⟨p, hp, hpe⟩ := List.mem_filterMap.mp hn
    have hp2 : p.2 = 0 ∧ p.1 = n := by
      by_cases h : p.2 = 0
      · exact ⟨h, by rw [if_pos h] at hpe; exact Option.some.inj hpe⟩
      · rw [if_neg h] at hpe; cases hpe
    have hmem' : (n, p.2) ∈ initInDegree spec := by
      rw [← hp2.2]
      simpa using hp
    have hlk : lookupA (initInDegree spec) n = some p.2 :=
      lookupA_eq_of_mem_nodup _ _ _ hndk hmem'
    have hval := hvals n (hsub.subset hn)
    rw [hlk] at hval
    have := Option.some.inj hval
    omega
  · intro n hnN _ hz
    have hkm : n ∈ (initInDegree spec).map Prod.fst := by rw [hkeys]; exact hnN
    obtain ⟨p, hp, hp1⟩ := List.mem_map.mp hkm
    have hmem' : (n, p.2) ∈ initInDegree spec := by
      rw [← hp1]
      simpa using hp
    have hlk : lookupA (initInDegree spec) n = some p.2 :=
      lookupA_eq_of_mem_nodup _ _ _ hndk hmem'
    have hval := hvals n hnN
    have hp2 : p.2 = 0 := by
      rw [hlk] at hval
      have := Option.some.inj hval
      rw [this, hz]
      simp
    exact List.mem_filterMap.mpr ⟨p, hp, by rw [if_pos hp2, hp1]⟩

/-- One iteration of the Kahn loop preserves the invariant: pop `current`,
decrement its successors, push those that reach degree zero. -/
theorem kahn_step (spec : WorkflowSpecM)
    (hnd : (nodeIds spec).Nodup)
    (H1 : ∀ e ∈ spec.edges, e.fromId ∈ nodeIds spec ∧ e.toId ∈ nodeIds spec)
    (current : String) (rest : List String) (inDeg : List (String × Int))
    (result : List String)
    (hinv : KahnInv spec (current :: rest) inDeg result) :
    KahnInv spec
      (rest ++ (decrementNeighbors inDeg
        ((lookupA (initGraph spec) current).getD [])).2)
      (decrementNeighbors inDeg ((lookupA (initGraph spec) current).getD [])).1
      (result ++ [current]) := by
  obtain ⟨keys, vals, nodupRQ, subR, subQ, zeroQ, zeroR, complete⟩ := hinv
  have hcurN : current ∈ nodeIds spec := subQ current (List.mem_cons_self current rest)
  have hcurR : current ∉ result := by
    intro h
    rw [List.nodup_append] at nodupRQ
    exact nodupRQ.2.2 h (List.mem_cons_self current rest)
  have hgraph := (initGraph_spec spec hnd (fun e he => (H1 e he).1)).2 current hcurN
  have hnbs : (lookupA (initGraph spec) current).getD [] =
      (spec.edges.filter fun e => e.fromId = current).map WorkflowEdgeM.toId := by
    rw [hgraph]
    rfl
  have hsubnb : ∀ x ∈ (lookupA (initGraph spec) current).getD [],
      x ∈ inDeg.map Prod.fst := by
    intro x hx
    rw [hnbs] at hx
    obtain ⟨e, he, rfl⟩ := List.mem_map.mp hx
    have heE : e ∈ spec.edges := List.mem_of_mem_filter he
    rw [keys]
    exact (H1 e heE).2
  have hcount : ∀ x, (((lookupA (initGraph spec) current).getD []).count x) =
      (spec.edges.filter fun e => e.fromId = current ∧ e.toId = x).length := by
    intro x
    rw [hnbs, count_map_filter_toId]
  obtain ⟨dkeys, dvals, dmem, dnodup⟩ :=
    dec_fold ((lookupA (initGraph spec) current).getD []) inDeg [] hsubnb (by simp)
  have hval' : ∀ n ∈ nodeIds spec,
      lookupA (decrementNeighbors inDeg
        ((lookupA (initGraph spec) current).getD [])).1 n =
        some (inCount spec (result ++ [current]) n : Int) := by
    intro n hn
    have h1 := dvals n _ (vals n hn)
    rw [decrementNeighbors, h1]
    have hae := inCount_append_one spec result current n hcurR
    have hc := hcount n
    congr 1
    omega
  have hpush : ∀ x ∈ (decrementNeighbors inDeg
      ((lookupA (initGraph spec) current).getD [])).2,
      x ∈ nodeIds spec ∧ 1 ≤ inCount spec result x ∧
        inCount spec (result ++ [current]) x = 0 := by
    intro x hx
    rw [decrementNeighbors] at hx
    rcases (dmem x).mp hx with hx' | ⟨d, hd, hd1, hd2⟩
    · simp at hx'
    · have hxN : x ∈ nodeIds spec := by
        rw [← keys]
        exact lookupA_mem_keys_of_some inDeg x d hd
      have hdval : d = (inCount spec result x : Int) :=
        Option.some.inj (hd.symm.trans (vals x hxN))
      subst hdval
      have hae := inCount_append_one spec result current x hcurR
      have hc := hcount x
      exact ⟨hxN, by omega, by omega⟩
  refine ⟨?_, hval', ?_, ?_, ?_, ?_, ?_, ?_⟩
  · rw [decrementNeighbors, dkeys, keys]
  · have hassoc : (result ++ [current]) ++ (rest ++ (decrementNeighbors inDeg
        ((lookupA (initGraph spec) current).getD [])).2) =
        (result ++ current :: rest) ++ (decrementNeighbors inDeg
          ((lookupA (initGraph spec) current).getD [])).2 := by
      simp
    rw [hassoc, List.nodup_append]
    refine ⟨nodupRQ, by rw [decrementNeighbors]; exact dnodup (by simp), ?_⟩
    intro x hx hx2
    obtain ⟨_, h1, _⟩ := hpush x hx2
    rcases List.mem_append.mp hx with hr | hq
    · rw [zeroR x hr] at h1
      omega
    · rw [zeroQ x hq] at h1
      omega
  · intro n hn
    rcases List.mem_append.mp hn with hr | hc
    · exact subR n hr
    · simp at hc
      rw [hc]
      exact hcurN
  · intro n hn
    rcases List.mem_append.mp hn with hr | hq
    · exact subQ n (List.mem_cons_of_mem current hr)
    · exact (hpush n hq).1
  · intro n hn
    rcases List.mem_append.mp hn with hr | hq
    · have h0 := zeroQ n (List.mem_cons_of_mem current hr)
      have hae := inCount_append_one spec result current n hcurR
      omega
    · exact (hpush n hq).2.2
  · intro n hn
    rcases List.mem_append.mp hn with hr | hc
    · have h0 := zeroR n hr
      have hae := inCount_append_one spec result current n hcurR
      omega
    · simp at hc
      subst hc
      have h0 := zeroQ n (List.mem_cons_self n rest)
      have hae := inCount_append_one spec result n n hcurR
      omega
  · intro n hnN hnR hz
    have hnR' : n ∉ result := fun h => hnR (List.mem_append_left _ h)
    have hncur : n ≠ current := by
      intro h
      exact hnR (List.mem_append_right _ (by simp [h]))
    have hae := inCount_append_one spec result current n hcurR
    by_cases h0 : inCount spec result n = 0
    · have := complete n hnN hnR' h0
      rcases List.mem_cons.mp this with h | h
      · exact absurd h hncur
      · exact List.mem_append_left _ h
    · refine List.mem_append_right _ ?_
      rw [decrementNeighbors]
      refine (dmem n).mpr (Or.inr ⟨(inCount spec result n : Int), vals n hnN, ?_, ?_⟩)
      · omega
      · have hc := hcount n
        omega

/-- The Kahn loop run from an invariant state with enough fuel produces a
permutation of the node-id list. -/
theorem kahn_loop_perm (spec : WorkflowSpecM)
    (hnd : (nodeIds spec).Nodup)
    (H1 : ∀ e ∈ spec.edges, e.fromId ∈ nodeIds spec ∧ e.toId ∈ nodeIds spec)
    (hacyc : AcyclicSpec spec) :
    ∀ (fuel : Nat) (queue : List String) (inDeg : List (String × Int))
      (result : List String),
      KahnInv spec queue inDeg result →
      (nodeIds spec).length ≤ fuel + result.length →
      (kahnLoop (initGraph spec) fuel queue inDeg result).Perm (nodeIds spec) := by
  intro fuel
  induction fuel with
  | zero =>
    intro queue inDeg result hinv hlen
    have hres : kahnLoop (initGraph spec) 0 queue inDeg result = result := by
      cases queue <;> rfl
    rw [hres]
    have hnd1 : result.Nodup := (List.nodup_append.mp hinv.nodupRQ).1
    have hsp : result.Subperm (nodeIds spec) :=
      List.subperm_of_subset hnd1 (fun x hx => hinv.subR x hx)
    exact hsp.perm_of_length_le (by omega)
  | succ fuel ih =>
    intro queue inDeg result hinv hlen
    cases queue with
    | nil =>
      have hres : kahnLoop (initGraph spec) (fuel + 1) [] inDeg result = result := rfl
      rw [hres]
      have hall : ∀ n ∈ nodeIds spec, n ∈ result := by
        by_contra hcon
        push_neg at hcon
        obtain ⟨n₀, hn₀N, hn₀R⟩ := hcon
        have hUne : (nodeIds spec).filter (fun n => !(result.contains n)) ≠ [] := by
          intro hempty
          have hmem : n₀ ∈ (nodeIds spec).filter (fun n => !(result.contains n)) :=
            List.mem_filter.mpr ⟨hn₀N, by simp [List.contains, List.elem_iff, hn₀R]⟩
          rw [hempty] at hmem
          cases hmem
        obtain ⟨n, hnU, hnopred⟩ := exists_no_pred spec hacyc _ hUne
        have hnN : n ∈ nodeIds spec := (List.mem_filter.mp hnU).1
        have hnR : n ∉ result := by
          have h2 := (List.mem_filter.mp hnU).2
          simpa [List.contains, List.elem_iff] using h2
        have hzero : inCount spec result n = 0 := by
          rw [inCount, List.length_eq_zero, List.filter_eq_nil_iff]
          intro e he hpe
          have hpe' : e.toId = n ∧ e.fromId ∉ result := by
            simpa [List.contains, List.elem_iff] using hpe
          have hfU : e.fromId ∈ (nodeIds spec).filter (fun n => !(result.contains n)) :=
            List.mem_filter.mpr ⟨(H1 e he).1,
              by simp [List.contains, List.elem_iff, hpe'.2]⟩
          exact hnopred e.fromId hfU ⟨e, he, rfl, hpe'.1⟩
        have hq := hinv.complete n hnN hnR hzero
        cases hq
      have hnd1 : result.Nodup := by
        have h := hinv.nodupRQ
        simpa using h
      exact (List.perm_ext_iff_of_nodup hnd1 hnd).mpr
        (fun x => ⟨fun hx => hinv.subR x hx, fun hx => hall x hx⟩)
    | cons current rest =>
      have hstep := kahn_step spec hnd H1 current rest inDeg result hinv
      have hres : kahnLoop (initGraph spec) (fuel + 1) (current :: rest) inDeg result =
          kahnLoop (initGraph spec) fuel
            (rest ++ (decrementNeighbors inDeg
              ((lookupA (initGraph spec) current).getD [])).2)
            (decrementNeighbors inDeg
              ((lookupA (initGraph spec) current).getD [])).1
            (result ++ [current]) := rfl
      rw [hres]
      apply ih _ _ _ hstep
      have hl : (result ++ [current]).length = result.length + 1 := by simp
      omega

/-- A spec with no edges has an acyclic edge relation. -/
theorem acyclic_of_no_edges (spec : WorkflowSpecM) (h : spec.edges = []) :
    AcyclicSpec spec := by
  intro n htg
  cases htg with
  | single hstep =>
    obtain ⟨e, he, _, _⟩ := hstep
    rw [h] at he
    cases he
  | tail _ hstep =>
    obtain ⟨e, he, _, _⟩ := hstep
    rw [h] at he
    cases he

/-- C1 as amended: the validator does accept cyclic specs (its cycle
detection only emits a console warning — see the counterexample above), so
validation alone does not make `getExecutionOrder` succeed. For a
validated spec whose node ids are distinct and whose edge relation is
acyclic, Kahn's topological sort succeeds: it returns an order that is a
permutation of the node-id list — every node exactly once — and whose
length is the node count, so the cycle `ExecutionError` is not thrown. -/
theorem topological_sort_of_validated (reg : Registry) (spec : WorkflowSpecM)
    (hv : validate reg spec = true)
    (hnd : (nodeIds spec).Nodup)
    (hacyc : AcyclicSpec spec) :
    ∃ order, getExecutionOrder spec = .ok order ∧
      order.Perm (nodeIds spec) ∧ order.length = spec.nodes.length := by
  have H1 := validate_edge_endpoints reg spec hv
  have hinit := kahn_init spec hnd H1
  have hlen0 : (nodeIds spec).length ≤ kahnFuel spec + ([] : List String).length := by
    rw [kahnFuel, nodeIds, List.length_map]
    simp
    omega
  have hperm := kahn_loop_perm spec hnd H1 hacyc (kahnFuel spec)
    ((initInDegree spec).filterMap fun p => if p.2 = 0 then some p.1 else none)
    (initInDegree spec) [] hinit hlen0
  have hlen : (kahnLoop (initGraph spec) (kahnFuel spec)
      ((initInDegree spec).filterMap fun p => if p.2 = 0 then some p.1 else none)
      (initInDegree spec) []).length = spec.nodes.length := by
    rw [hperm.length_eq, nodeIds, List.length_map]
  refine ⟨kahnLoop (initGraph spec) (kahnFuel spec)
    ((initInDegree spec).filterMap fun p => if p.2 = 0 then some p.1 else none)
    (initInDegree spec) [], ?_, hperm, hlen⟩
  rw [getExecutionOrder]
  simp only [hlen, ne_eq, not_true_eq_false, if_false]

/-- C1 witness: the validated single-node spec has distinct ids and an
acyclic (empty) edge relation, and the sort returns a one-node order. -/
theorem topological_sort_of_validated_witness :
    validate echoRegistry singleSpec = true ∧ (nodeIds singleSpec).Nodup ∧
      ∃ order, getExecutionOrder singleSpec = .ok order ∧
        order.Perm (nodeIds singleSpec) ∧ order.length = singleSpec.nodes.length :=
  ⟨by decide, by decide,
    topological_sort_of_validated echoRegistry singleSpec (by decide) (by decide)
      (acyclic_of_no_edges singleSpec rfl)⟩

/-! ## C7 — template-token preservation -/

theorem walkParts_undefined (ps : List (List Char)) : walkParts .undefined ps = .undefined := by
  cases ps <;> rfl

theorem getNestedValue_empty_obj (p : String) :
    getNestedValue (.obj []) p = .undefined := by
  rw [getNestedValue]
  cases hsp : splitOnChar '.' p.data with
  | nil => exact absurd hsp (splitOnChar_ne_nil '.' p.data)
  | cons a as =>
    show walkParts (getProp (.obj []) (String.mk a)) as = .undefined
    exact walkParts_undefined as

theorem takeWhile_append_drop_self {α : Type} (p : α → Bool) (l : List α) :
    l.takeWhile p ++ l.drop (l.takeWhile p).length = l := by
  induction l with
  | nil => rfl
  | cons c cs ih =>
    rw [List.takeWhile_cons]
    by_cases h : p c = true
    · simpa [h] using ih
    · simp [h]

theorem matchTemplateAt_decomp (cs inner tail : List Char)
    (h : matchTemplateAt cs = some (inner, tail)) :
    cs = '{' :: '{' :: (inner ++ '}' :: '}' :: tail) ∧ inner ≠ [] ∧
      inner = (cs.drop 2).takeWhile (fun c => c ≠ '}') := by
  match cs with
  | [] => exact absurd h (by intro hh; cases hh)
  | [c1] => exact absurd h (by intro hh; cases hh)
  | c1 :: c2 :: rest =>
    rw [matchTemplateAt] at h
    by_cases hb : c1 = '{' ∧ c2 = '{'
    · rw [if_pos hb] at h
      simp only at h
      by_cases hi : rest.takeWhile (fun c => c ≠ '}') = []
      · rw [if_pos hi] at h; exact absurd h (by simp)
      · rw [if_neg hi] at h
        have hsplit := takeWhile_append_drop_self (fun c => decide (c ≠ '}')) rest
        cases hafter : rest.drop (rest.takeWhile (fun c => c ≠ '}')).length with
        | nil => rw [hafter] at h; exact absurd h (by simp)
        | cons a1 tl1 =>
          cases tl1 with
          | nil => rw [hafter] at h; exact absurd h (by simp)
          | cons a2 tl2 =>
            rw [hafter] at h
            simp only at h
            by_cases hbb : a1 = '}' ∧ a2 = '}'
            · rw [if_pos hbb] at h
              have hpair := Option.some.inj h
              have hinner : inner = rest.takeWhile (fun c => c ≠ '}') :=
                (congrArg Prod.fst hpair).symm
              have htail : tail = tl2 := (congrArg Prod.snd hpair).symm
              subst hinner
              subst htail
              obtain ⟨hb1, hb2⟩ := hb
              obtain ⟨hbb1, hbb2⟩ := hbb
              subst hb1; subst hb2; subst hbb1; subst hbb2
              have hrest : rest = rest.takeWhile (fun c => c ≠ '}') ++
                  '}' :: '}' :: tail := by
                conv_lhs => rw [← hsplit]
                rw [hafter]
              exact ⟨congrArg (fun l => '{' :: '{' :: l) hrest, hi, rfl⟩
            · rw [if_neg hbb] at h; exact absurd h (by simp)
    · rw [if_neg hb] at h; exact absurd h (by simp)

theorem matchTemplateAt_inner_no_brace (cs inner tail : List Char)
    (h : matchTemplateAt cs = some (inner, tail)) : ∀ c ∈ inner, c ≠ '}' := by
  have hdec := (matchTemplateAt_decomp cs inner tail h).2.2
  intro c hc
  rw [hdec] at hc
  simpa using List.mem_takeWhile_imp hc

theorem findTemplate_decomp (cs pre inner rest : List Char)
    (h : findTemplate cs = some (pre, inner, rest)) :
    cs = pre ++ '{' :: '{' :: (inner ++ '}' :: '}' :: rest) := by
  induction cs generalizing pre with
  | nil => exact absurd h (by intro hh; cases hh)
  | cons c cs' ih =>
    rw [findTemplate] at h
    cases hm : matchTemplateAt (c :: cs') with
    | some it =>
      obtain ⟨i2, t2⟩ := it
      rw [hm] at h
      simp only at h
      have hdec := (matchTemplateAt_decomp (c :: cs') i2 t2 hm).1
      have hpair := Option.some.inj h
      have h1 : pre = [] := (congrArg (fun x => x.1) hpair).symm
      have h2 : inner = i2 := (congrArg (fun x => x.2.1) hpair).symm
      have h3 : rest = t2 := (congrArg (fun x => x.2.2) hpair).symm
      subst h1
      rw [h2, h3, List.nil_append]
      exact hdec
    | none =>
      rw [hm] at h
      cases hf : findTemplate cs' with
      | none => rw [hf] at h; exact absurd h (by simp)
      | some pit =>
        obtain ⟨p1, i1, t1⟩ := pit
        rw [hf] at h
        simp only at h
        have hpair := Option.some.inj h
        have h1 : pre = c :: p1 := (congrArg (fun x => x.1) hpair).symm
        have h2 : inner = i1 := (congrArg (fun x => x.2.1) hpair).symm
        have h3 : rest = t1 := (congrArg (fun x => x.2.2) hpair).symm
        have hrec := ih p1 (by rw [hf, h2, h3])
        subst h1
        rw [List.cons_append]
        exact congrArg (List.cons c) hrec

theorem replaceTemplates_all_unresolved (ctx : JValue)
    (hctx : ∀ p, getNestedValue ctx p = .undefined) :
    ∀ fuel cs, cs.length < fuel → replaceTemplates ctx fuel cs = cs := by
  intro fuel
  induction fuel with
  | zero => intro cs h; omega
  | succ f ih =>
    intro cs hlen
    rw [replaceTemplates]
    cases hft : findTemplate cs with
    | none => rfl
    | some pit =>
      obtain ⟨pre, inner, rest⟩ := pit
      have hdec := findTemplate_decomp cs pre inner rest hft
      simp only [hctx]
      have hrest : rest.length < f := by
        have hl := congrArg List.length hdec
        simp only [List.length_append, List.length_cons] at hl
        omega
      rw [ih rest hrest, hdec]
      simp

/-- C7 counterexample: a string that is exactly one template whose path is
missing from the context resolves to the JS value `undefined`, not to the
literal token text the claim promises. -/
theorem resolve_full_template_missing_undefined :
    resolve (.str "{{missing}}") (.obj [("input", .str "x")]) = .undefined ∧
      JValue.undefined ≠ JValue.str "{{missing}}" :=
  ⟨rfl, fun h => JValue.noConfusion h⟩

/-- C7 as amended: over a context in which no path resolves, a string
containing template tokens inside surrounding text is returned verbatim
(every unresolved token is preserved as its literal text), but when the
entire string is exactly one template expression, `resolve` returns the
JS value `undefined` instead of the literal token. -/
theorem resolve_unresolved_tokens (ctx : JValue)
    (hctx : ∀ p, getNestedValue ctx p = .undefined) (s : String) :
    (∀ inner, fullTemplateMatch s.data = some inner → resolve (.str s) ctx = .undefined) ∧
    (fullTemplateMatch s.data = none → resolve (.str s) ctx = .str s) := by
  constructor
  · intro inner hfull
    rw [fullTemplateMatch] at hfull
    cases hm : matchTemplateAt s.data with
    | none => rw [hm] at hfull; exact absurd hfull (by simp)
    | some it =>
      rw [hm] at hfull
      obtain ⟨i2, t2⟩ := it
      cases t2 with
      | cons a tl => exact absurd hfull (by simp)
      | nil =>
        have hi : i2 = inner := by simpa using hfull
        subst hi
        have hdec := matchTemplateAt_decomp s.data i2 [] hm
        have hne : s.data ≠ [] := by rw [hdec.1]; simp
        rw [resolve]
        have hfind : findTemplate s.data = some ([], i2, []) := by
          cases hsd : s.data with
          | nil => exact absurd hsd hne
          | cons c cs' =>
            rw [findTemplate]
            rw [← hsd, hm]
        have hsome : (findTemplate s.data).isSome = true := by rw [hfind]; rfl
        rw [hsome]
        simp only [Bool.true_eq_false, if_false]
        rw [fullTemplateMatch, hm]
        exact hctx _
  · intro hnone
    rw [resolve]
    by_cases hsome : (findTemplate s.data).isSome = true
    · rw [hsome]
      simp only [Bool.true_eq_false, if_false]
      rw [hnone]
      have hrep := replaceTemplates_all_unresolved ctx hctx (s.data.length + 1) s.data
        (by omega)
      rw [hrep]
    · have : (findTemplate s.data).isSome = false := by
        cases hq : (findTemplate s.data).isSome
        · rfl
        · exact absurd hq hsome
      rw [this]
      simp

/-- C7 witness: over the empty-object context, an embedded unresolved
token is preserved verbatim, while a whole-string template resolves to
`undefined`. -/
theorem resolve_unresolved_tokens_witness :
    resolve (.str "a-{{x}}-b") (.obj []) = .str "a-{{x}}-b" ∧
      resolve (.str "{{x}}") (.obj []) = .undefined := by
  have h1 := (resolve_unresolved_tokens (.obj []) getNestedValue_empty_obj "a-{{x}}-b").2
  have h2 := (resolve_unresolved_tokens (.obj []) getNestedValue_empty_obj "{{x}}").1
  exact ⟨h1 rfl, h2 ['x'] rfl⟩

/-! ## C6 — server-side payment verification -/

/-- C6 counterexample: the claim says a payload whose value strictly
exceeds `maxAmountRequired`, all other conditions met, is accepted; the
middleware verifier (`X402PaymentMiddleware.verifyPayment`) instead
requires exact equality and rejects the 200-for-100 payload with an
amount mismatch. -/
theorem middleware_rejects_overpayment :
    decToNat? overpayAuth.value = some 200 ∧
      decToNat? overpayReqs.maxAmountRequired = some 100 ∧
      toLowerStr overpayAuth.toAddr = toLowerStr overpayReqs.payTo ∧
      natToStr overpayAuth.chainId = getChainIdStr overpayReqs.network ∧
      middlewareVerifyPayment { authorization := some overpayAuth } overpayReqs =
        { valid := false,
          errMsg := some "Amount mismatch: expected 100, got 200" } :=
  ⟨by decide, by decide, by decide, by decide, by decide⟩

/-- C6 as amended: the facilitator verifier
(`PaymentFacilitator.verifyPayment`) accepts exactly under the claimed
conditions — network equality, recipient match (case-insensitive),
`value ≥ maxAmountRequired` (so strict excess is accepted),
`validAfter ≤ now ≤ validBefore`, and the recovered signer of the message
carried in the payload equal to `from` (case-insensitive) — while the
middleware verifier (`X402PaymentMiddleware.verifyPayment`) instead
accepts exactly when an authorization is present, its `chainId` matches
the requirement's network, its value equals `maxAmountRequired` as a
string, and the recipient matches (case-insensitive); the middleware
performs no validity-window or signature check and rejects any value
different from the required amount. -/
theorem payment_verifier_characterisation
    (recover : String → String → String) (now : Nat) (p : PaymentPayloadM)
    (reqs : PaymentRequirementsM) (mp : MwPaymentPayload)
    (mreqs : PaymentRequirementsM) :
    ((facilitatorVerifyPayment recover now p reqs).valid = true ↔
      (p.network = reqs.network ∧
       toLowerStr p.payloadData.authorization.toAddr = toLowerStr reqs.payTo ∧
       (∃ v m, decToNat? p.payloadData.authorization.value = some v ∧
         decToNat? reqs.maxAmountRequired = some m ∧ m ≤ v) ∧
       p.payloadData.authorization.validAfter ≤ now ∧
       now ≤ p.payloadData.authorization.validBefore ∧
       toLowerStr (recover (p.payloadData.authorization.extraMessage.getD "")
           p.payloadData.signature) =
         toLowerStr p.payloadData.authorization.fromAddr)) ∧
    ((middlewareVerifyPayment mp mreqs).valid = true ↔
      (∃ auth, mp.authorization = some auth ∧
        natToStr auth.chainId = getChainIdStr mreqs.network ∧
        auth.value = mreqs.maxAmountRequired ∧
        toLowerStr auth.toAddr = toLowerStr mreqs.payTo)) := by
  constructor
  · rw [facilitatorVerifyPayment]
    rcases hv : decToNat? p.payloadData.authorization.value with _ | v <;>
      rcases hm : decToNat? reqs.maxAmountRequired with _ | m <;>
      simp only <;>
      split_ifs with h1 h2 h3 h4 h5 <;>
      simp_all <;>
      omega
  · rw [middlewareVerifyPayment]
    cases mp.authorization with
    | none => simp
    | some auth =>
      simp only
      split_ifs with h1 h2 h3 <;> simp_all

/-- C6 witness: the facilitator accepts a concrete payload paying 200
against a 100 requirement, with all other conditions met. -/
theorem payment_verifier_characterisation_witness :
    (facilitatorVerifyPayment (fun _ _ => "0xF") 50
      { network := "base-sepolia",
        payloadData :=
          { authorization :=
              { fromAddr := "0xF", toAddr := "0xmerch", value := "200",
                validAfter := 10, validBefore := 100, nonce := "n",
                extraMessage := some "msg" },
            signature := "sig" } }
      overpayReqs).valid = true :=
  (payment_verifier_characterisation (fun _ _ => "0xF") 50
    { network := "base-sepolia",
      payloadData :=
        { authorization :=
            { fromAddr := "0xF", toAddr := "0xmerch", value := "200",
              validAfter := 10, validBefore := 100, nonce := "n",
              extraMessage := some "msg" },
          signature := "sig" } }
    overpayReqs { authorization := none } overpayReqs).1.mpr
    ⟨rfl, by decide, ⟨200, 100, by decide, by decide, by decide⟩,
      by decide, by decide, by decide⟩

/-! ## C3 — run terminal-state behaviour -/

/-- Helper: the timestamp-defaulting step of `updateRunStatus` never
clears an already-set `endedAt`. -/
theorem updateRunStatus_keeps_endedAt (st : SchedulerState) (rid : String)
    (status : RunStatus) (patch : RunPatch) (now : Nat) (runId : String) (t : Nat)
    (hp : patch.endedAt = none) (h : endedAtOf st runId = some t) :
    endedAtOf
      (match updateRunStatus st rid status patch now with
        | .ok p => p.2
        | .error _ => st) runId = some t := by
  rw [updateRunStatus]
  cases hl : lookupA st.runs rid with
  | none => simpa using h
  | some run =>
    simp only
    by_cases hr : rid = runId
    · subst hr
      have hrun : run.endedAt = some t := by
        rw [endedAtOf, hl] at h; exact h
      rw [endedAtOf]
      simp only [lookupA_setA_self]
      simp only [hp, hrun]
      by_cases h1 : status = RunStatus.running ∧
          (match patch.startedAt with | some v => some v | none => run.startedAt) = none
      · rw [if_pos h1]
      · rw [if_neg h1]
        have : ¬ (status.isTerminal = true ∧ (some t : Option Nat) = none) := by
          rintro ⟨-, hc⟩; cases hc
        rw [if_neg this]
    · rw [endedAtOf]
      rw [lookupA_setA_ne _ _ _ _ hr]
      exact h

/-- Helper: one scheduler call with an `endedAt`-preserving patch keeps a
set `endedAt`. -/
theorem stepCmd_keeps_endedAt (st : SchedulerState) (c : SchedCmd) (runId : String)
    (t : Nat) (hc : patchKeepsEnded c) (h : endedAtOf st runId = some t) :
    endedAtOf (stepCmd st c) runId = some t := by
  cases c with
  | update rid status patch now =>
    exact updateRunStatus_keeps_endedAt st rid status patch now runId t hc h
  | cancel rid now =>
    rw [stepCmd, cancelRun]
    cases hl : lookupA st.runs rid with
    | none => exact h
    | some run =>
      simp only
      by_cases hterm : run.status.isTerminal = true
      · rw [if_pos hterm]; exact h
      · rw [if_neg hterm]
        have hqueue : endedAtOf { st with queue := st.queue.erase rid } runId = some t := h
        cases hrel : releaseBudget st.budget rid none with
        | error e => simpa [hrel] using hqueue
        | ok b' =>
          simp only [hrel]
          have hb : endedAtOf
              { st with queue := st.queue.erase rid, budget := b' } runId = some t := h
          have := updateRunStatus_keeps_endedAt
            { st with queue := st.queue.erase rid, budget := b' } rid .cancelled {} now
            runId t rfl hb
          cases hup : updateRunStatus
              { st with queue := st.queue.erase rid, budget := b' } rid .cancelled {} now with
          | error e => simpa [hup] using this
          | ok p => simpa [hup] using this

/-- C3 counterexample: terminal states are not sinks — the source's
`updateRunStatus` performs no transition check, so a `completed` run is
moved straight back to `running` by a single call. -/
theorem updateRunStatus_escapes_terminal :
    termRun.status.isTerminal = true ∧
      (updateRunStatus termState "r1" .running {} 5).map (fun p => p.1.status) =
        .ok .running :=
  ⟨rfl, by decide⟩

/-- C3 as amended: `cancelRun` rejects runs already in a terminal state
(error, state unchanged), but `updateRunStatus` performs no transition
check and will set any requested status on a terminal run; `endedAt` is
assigned by `updateRunStatus` at the first transition into a terminal
state and is never cleared or reassigned by later calls whose patch does
not itself carry `endedAt`. -/
theorem scheduler_endedAt_and_cancel :
    (∀ st runId now run, lookupA st.runs runId = some run →
      run.status.isTerminal = true →
      (∃ e, (cancelRun st runId now).1 = .error e) ∧ (cancelRun st runId now).2 = st) ∧
    (∀ st cs runId t, (∀ c ∈ cs, patchKeepsEnded c) → endedAtOf st runId = some t →
      endedAtOf (runCmds st cs) runId = some t) ∧
    (∀ st runId status patch now run r st',
      lookupA st.runs runId = some run → run.endedAt = none → patch.endedAt = none →
      status.isTerminal = true →
      updateRunStatus st runId status patch now = .ok (r, st') →
      r.endedAt = some now ∧ endedAtOf st' runId = some now) := by
  refine ⟨?_, ?_, ?_⟩
  · intro st runId now run hl hterm
    rw [cancelRun.eq_def, hl]
    simp only
    rw [if_pos hterm]
    exact ⟨⟨_, rfl⟩, rfl⟩
  · intro st cs runId t hcs h
    induction cs generalizing st with
    | nil => exact h
    | cons c cs ih =>
      exact ih (stepCmd st c) (fun d hd => hcs d (List.mem_cons_of_mem c hd))
        (stepCmd_keeps_endedAt st c runId t (hcs c (List.mem_cons_self c cs)) h)
  · intro st runId status patch now run r st' hl hend hp hterm hok
    rw [updateRunStatus, hl] at hok
    simp only at hok
    have hrun : status = RunStatus.running → False := by
      intro hs; rw [hs] at hterm; cases hterm
    have hcond : ¬ (status = RunStatus.running ∧
        (match patch.startedAt with | some v => some v | none => run.startedAt) = none) := by
      rintro ⟨hs, -⟩; exact hrun hs
    rw [if_neg hcond] at hok
    have hcond2 : (status.isTerminal = true ∧
        (match patch.endedAt with | some v => some v | none => run.endedAt) = none) := by
      rw [hp, hend]; exact ⟨hterm, rfl⟩
    rw [if_pos hcond2] at hok
    have hpair := Except.ok.inj hok
    have hrr : r = _ := (congrArg Prod.fst hpair).symm
    have hss : st' = _ := (congrArg Prod.snd hpair).symm
    subst hrr
    subst hss
    exact ⟨rfl, by rw [endedAtOf]; simp [lookupA_setA_self]⟩

/-- C3 witness: cancelling the concrete completed run is rejected and
leaves the state untouched. -/
theorem scheduler_endedAt_and_cancel_witness :
    (∃ e, (cancelRun termState "r1" 9).1 = .error e) ∧
      (cancelRun termState "r1" 9).2 = termState :=
  scheduler_endedAt_and_cancel.1 termState "r1" 9 termRun rfl rfl

/-- C9 witness: releasing the concrete reservation of `dupResState` marks
it released and the balance does not decrease. -/
theorem releaseBudget_monotone_and_released_witness :
    (∃ rv', lookupA relState'.reservations "r1" = some rv' ∧
      rv'.status = .released) ∧
    (∃ b', getBalance relState' "0xW" "USDC" = some b' ∧
      (JQ.ofNat 10).toRat ≤ b'.toRat) := by
  have h := releaseBudget_monotone_and_released dupResState "r1" none relState' (by decide)
  exact ⟨h.1, h.2
    { reservationId := "resv0", runId := "r1", userWallet := "0xW",
      amount := "5", token := "USDC", chain := "base",
      status := .reserved, createdAt := 0 }
    (JQ.ofNat 10) (by decide) (by decide)⟩

end Vega
